import Mathlib

/-!
# Verification of the `text-diff` HTML diff library (`src/main.js`)

Shallow embedding of the `HTMLDiff` class and the `Match` class from
`src/main.js`, together with theorems settling the specification claims.

Strings are modelled as lists of Unicode scalar values (`List Char`),
matching the `for (const char of html)` code-point iteration used by the
tokenizer.  A token is a `List Char`; a token sequence is a
`List (List Char)`.  JavaScript numbers appearing in diff operations are
modelled as `Int` (all arithmetic in the source is exact small-integer
arithmetic), and JavaScript `undefined` fields as `Option`.
-/

set_option autoImplicit false

namespace HTMLDiff

/-- A token, as produced by `htmlToTokens`: a slice of the input string. -/
abbrev Token := List Char

/-- Character class of the JavaScript `\s` regex escape (used by
`isWhitespace` via `/^\s+$/` and by the `/^\s$/` and `/^\s*<[^>]+>\s*$/`
regexes): ASCII whitespace plus the Unicode white-space code points and
the BOM. -/
def isWhitespaceChar (c : Char) : Bool :=
  c = ' ' || c = '\t' || c = '\n' || c = '\x0b' || c = '\x0c' || c = '\r' ||
  c = '\u00A0' || c = '\u1680' ||
  ('\u2000' ≤ c && c ≤ '\u200A') ||
  c = '\u2028' || c = '\u2029' || c = '\u202F' || c = '\u205F' ||
  c = '\u3000' || c = '\uFEFF'

/-- `isWhitespace(char)`: `/^\s+$/.test(char)` on a single character. -/
def isWhitespace (c : Char) : Bool := isWhitespaceChar c

/-- `isEndOfTag(char)`: `char === '>'`. -/
def isEndOfTag (c : Char) : Bool := c = '>'

/-- `isStartOfTag(char)`: `char === '<'`. -/
def isStartOfTag (c : Char) : Bool := c = '<'

/-- Character class of the tokenizer's `/[\w#@]/i` test: JavaScript `\w`
(ASCII letters, digits, underscore — the `i` flag adds nothing) plus `#`
and `@`. -/
def isWordChar (c : Char) : Bool :=
  (('a' ≤ c && c ≤ 'z') || ('A' ≤ c && c ≤ 'Z') || ('0' ≤ c && c ≤ '9') ||
   c = '_' || c = '#' || c = '@')

/-- The tokenizer's lexical mode (`'char'`, `'tag'`, `'whitespace'`). -/
inductive Mode where
  | char
  | tag
  | whitespace
deriving DecidableEq, Repr

/-- The tokenizer's loop state: the tokens pushed so far, the token being
accumulated (`currentToken`), and the current mode. -/
structure TokState where
  tokens : List Token
  currentToken : Token
  mode : Mode
deriving DecidableEq, Repr

/-- Pushes `currentToken` onto `tokens` if it is non-empty
(`if (currentToken) tokens.push(currentToken)`: the empty string is falsy). -/
def flushToken (tokens : List Token) (currentToken : Token) : List Token :=
  tokens ++ (if currentToken = [] then [] else [currentToken])

/-- One iteration of the `for (const char of html)` loop of `htmlToTokens`. -/
def tokenStep (st : TokState) (c : Char) : TokState :=
  match st.mode with
  | .tag =>
    let cur := st.currentToken ++ [c]
    if isEndOfTag c then
      { tokens := st.tokens ++ [cur], currentToken := [],
        mode := if isWhitespace c then .whitespace else .char }
    else
      { st with currentToken := cur }
  | .char =>
    if isStartOfTag c then
      { tokens := flushToken st.tokens st.currentToken, currentToken := [c], mode := .tag }
    else if isWhitespace c then
      { tokens := flushToken st.tokens st.currentToken, currentToken := [c], mode := .whitespace }
    else if isWordChar c then
      { st with currentToken := st.currentToken ++ [c] }
    else
      { tokens := flushToken st.tokens st.currentToken, currentToken := [c], mode := .char }
  | .whitespace =>
    if isStartOfTag c then
      { tokens := flushToken st.tokens st.currentToken, currentToken := [c], mode := .tag }
    else if isWhitespace c then
      { st with currentToken := st.currentToken ++ [c] }
    else
      { tokens := flushToken st.tokens st.currentToken, currentToken := [c], mode := .char }

/-- `htmlToTokens(html)`: scan the input left to right starting in `char`
mode, then flush any remaining partial token. -/
def htmlToTokens (html : List Char) : List Token :=
  let st := html.foldl tokenStep ⟨[], [], .char⟩
  flushToken st.tokens st.currentToken

/-- JavaScript `Array.prototype.slice(start, end)` index clamping:
negative indices count from the end, and indices are clamped to
`[0, length]`. -/
def jsSliceIdx (len : Nat) (i : Int) : Nat :=
  if i < 0 then ((len : Int) + i).toNat else min i.toNat len

/-- JavaScript `array.slice(start, end)` with exact index semantics. -/
def jsSlice {α : Type} (l : List α) (s e : Int) : List α :=
  (l.drop (jsSliceIdx l.length s)).take (jsSliceIdx l.length e - jsSliceIdx l.length s)

/-- The `Match` class: a run of `length` pairwise-equal tokens anchored at
`startInBefore` / `startInAfter`.  The `endInBefore` / `endInAfter` fields
computed by the constructor are exposed as derived functions below. -/
structure Match where
  startInBefore : Nat
  startInAfter : Nat
  length : Nat
deriving DecidableEq, Repr

/-- `this.endInBefore = this.startInBefore + this.length - 1`. -/
def Match.endInBefore (m : Match) : Int := (m.startInBefore : Int) + m.length - 1

/-- `this.endInAfter = this.startInAfter + this.length - 1`. -/
def Match.endInAfter (m : Match) : Int := (m.startInAfter : Int) + m.length - 1

/-- All positions of `inThese` holding exactly the token `t`, ascending —
the contents of one entry of the index built by `createIndex` (the source
collects them with a repeated `indexOf` scan). -/
def indexesOf (t : Token) (inThese : List Token) : List Nat :=
  (List.range inThese.length).filter (fun j => inThese[j]? = some t)

/-- `createIndex(findThese, inThese)`: a JavaScript object mapping each
token value occurring in `findThese` to its positions in `inThese`;
lookups of other keys yield `undefined`, which `findMatch` defaults to
`[]` (`index[lookingFor] || []`). -/
def createIndex (findThese inThese : List Token) : Token → List Nat :=
  fun t => if t ∈ findThese then indexesOf t inThese else []

/-- The running best-match state of `findMatch`
(`bestMatchInBefore`, `bestMatchInAfter`, `bestMatchLength`). -/
structure Best where
  inBefore : Int
  inAfter : Int
  len : Nat
deriving DecidableEq, Repr

/-- The inner `for (const indexInAfter of locationsInAfter)` loop of
`findMatch`: `continue` on positions before the after-range, `break` once
past it (the location lists are ascending), otherwise extend the run
ending at `(indexInBefore, indexInAfter)` by reading row `i - 1`'s length
at `indexInAfter - 1` (the map `matchLengthAt` is keyed by `Int` so that
the JavaScript read of key `-1`, which yields `undefined || 0`, is
modelled exactly). -/
def innerLoop (startInAfter endInAfter indexInBefore : Nat) (matchLengthAt : Int → Nat) :
    List Nat → (Int → Nat) → Best → ((Int → Nat) × Best)
  | [], newMatchLengthAt, best => (newMatchLengthAt, best)
  | j :: rest, newMatchLengthAt, best =>
    if j < startInAfter then
      innerLoop startInAfter endInAfter indexInBefore matchLengthAt rest newMatchLengthAt best
    else if endInAfter ≤ j then
      (newMatchLengthAt, best)
    else
      let newMatchLength := matchLengthAt ((j : Int) - 1) + 1
      let newMatchLengthAt' : Int → Nat :=
        fun k => if k = (j : Int) then newMatchLength else newMatchLengthAt k
      let best' : Best :=
        if best.len < newMatchLength then
          ⟨(indexInBefore : Int) - newMatchLength + 1, (j : Int) - newMatchLength + 1,
            newMatchLength⟩
        else best
      innerLoop startInAfter endInAfter indexInBefore matchLengthAt rest newMatchLengthAt' best'

/-- The outer `for (let indexInBefore = startInBefore; ...)` loop of
`findMatch`, iterating `steps` times from row `indexInBefore`.  A row's
location list is `index[beforeTokens[indexInBefore]] || []` (an
out-of-range token read yields `undefined`, whose index lookup defaults
to `[]`). -/
def outerLoop (beforeTokens : List Token) (index : Token → List Nat)
    (startInAfter endInAfter : Nat) :
    Nat → Nat → (Int → Nat) → Best → Best
  | _, 0, _, best => best
  | indexInBefore, steps + 1, matchLengthAt, best =>
    let locationsInAfter :=
      match beforeTokens[indexInBefore]? with
      | some tok => index tok
      | none => []
    let r := innerLoop startInAfter endInAfter indexInBefore matchLengthAt
      locationsInAfter (fun _ => 0) best
    outerLoop beforeTokens index startInAfter endInAfter (indexInBefore + 1) steps r.1 r.2

/-- `findMatch(beforeTokens, afterTokens, index, startInBefore,
endInBefore, startInAfter, endInAfter)`.  The best coordinates are kept
as `Int` (exact JavaScript arithmetic); they are provably in range
(`findMatch_bounds`), so the final `toNat` conversions are lossless. -/
def findMatch (beforeTokens : List Token) (index : Token → List Nat)
    (startInBefore endInBefore startInAfter endInAfter : Nat) : Option Match :=
  let best := outerLoop beforeTokens index startInAfter endInAfter
    startInBefore (endInBefore - startInBefore) (fun _ => 0)
    ⟨startInBefore, startInAfter, 0⟩
  if best.len ≠ 0 then some ⟨best.inBefore.toNat, best.inAfter.toNat, best.len⟩ else none

/-- `recursivelyFindMatchingBlocks`: find the best match of the range,
recurse into the gap before it, push it, recurse into the gap after it
(`match.endInBefore + 1 = match.startInBefore + match.length`, and
likewise in the after-coordinates).  The recursion is driven by a fuel
parameter that decreases structurally; `recursivelyFindMatchingBlocks_fuel`
below shows any fuel exceeding the total range size gives the (unique)
fixed result, so the top-level fuel used by `findMatchingBlocks` is
enough.  (The source also passes `afterTokens`, which `findMatch` never
reads: the after-sequence is consulted only through `index`.) -/
def recursivelyFindMatchingBlocks (beforeTokens : List Token) (index : Token → List Nat) :
    Nat → Nat → Nat → Nat → Nat → List Match → List Match
  | 0, _, _, _, _, matchingBlocks => matchingBlocks
  | fuel + 1, startInBefore, endInBefore, startInAfter, endInAfter, matchingBlocks =>
    match findMatch beforeTokens index startInBefore endInBefore startInAfter endInAfter with
    | some m =>
      let blocks₁ :=
        if startInBefore < m.startInBefore ∧ startInAfter < m.startInAfter then
          recursivelyFindMatchingBlocks beforeTokens index fuel
            startInBefore m.startInBefore startInAfter m.startInAfter matchingBlocks
        else matchingBlocks
      let blocks₂ := blocks₁ ++ [m]
      if m.endInBefore < (endInBefore : Int) ∧ m.endInAfter < (endInAfter : Int) then
        recursivelyFindMatchingBlocks beforeTokens index fuel
          (m.startInBefore + m.length) endInBefore (m.startInAfter + m.length) endInAfter blocks₂
      else blocks₂
    | none => matchingBlocks

/-- `findMatchingBlocks(beforeTokens, afterTokens)`: build the index of
before-tokens over after-positions and run the recursive aligner over the
full ranges. -/
def findMatchingBlocks (beforeTokens afterTokens : List Token) : List Match :=
  recursivelyFindMatchingBlocks beforeTokens (createIndex beforeTokens afterTokens)
    (beforeTokens.length + afterTokens.length + 1)
    0 beforeTokens.length 0 afterTokens.length []

/-- The `action` field of an operation.  (The transient `'none'` action of
the source's `actionMap` is never pushed into the operation list; the gap
branch below simply emits nothing in that case.) -/
inductive Action where
  | equal
  | insert
  | delete
  | replace
deriving DecidableEq, Repr

/-- An operation record as pushed by `calculateOperations`:
`endInBefore` is `undefined` (`none`) exactly on `insert` gap operations
and `endInAfter` exactly on `delete` gap operations. -/
structure Op where
  action : Action
  startInBefore : Int
  endInBefore : Option Int
  startInAfter : Int
  endInAfter : Option Int
deriving DecidableEq, Repr

/-- The gap classification of `actionMap`:
`(alignedInBefore, alignedInAfter)`:
`(true,true) → none`, `(true,false) → insert`, `(false,true) → delete`,
`(false,false) → replace`; `none` emits no operation. -/
def gapAction (alignedInBefore alignedInAfter : Bool) : Option Action :=
  match alignedInBefore, alignedInAfter with
  | true, true => none
  | true, false => some .insert
  | false, true => some .delete
  | false, false => some .replace

/-- The gap operation pushed by `calculateOperations` for action `a`
ahead of match `m`, with the cursors at `(positionInBefore,
positionInAfter)`: `endInBefore` is `undefined` on `insert` and
`endInAfter` on `delete`. -/
def gapOpOf (a : Action) (positionInBefore positionInAfter : Int) (m : Match) : Op :=
  { action := a,
    startInBefore := positionInBefore,
    endInBefore := if a ≠ .insert then some ((m.startInBefore : Int) - 1) else none,
    startInAfter := positionInAfter,
    endInAfter := if a ≠ .delete then some ((m.startInAfter : Int) - 1) else none }

/-- The `equal` operation pushed by `calculateOperations` for a non-empty
match `m`. -/
def eqOpOf (m : Match) : Op :=
  { action := .equal,
    startInBefore := (m.startInBefore : Int),
    endInBefore := some m.endInBefore,
    startInAfter := (m.startInAfter : Int),
    endInAfter := some m.endInAfter }

/-- The body of the `for (const match of matches)` loop of
`calculateOperations`: emit the gap operation (if any) spanning the
cursors up to the match start, then an `equal` operation when the match
is non-empty, then advance both cursors to `match.end + 1`. -/
def opsWalk : List Match → Int → Int → List Op
  | [], _, _ => []
  | m :: rest, positionInBefore, positionInAfter =>
    let alignedInBefore : Bool := positionInBefore = (m.startInBefore : Int)
    let alignedInAfter : Bool := positionInAfter = (m.startInAfter : Int)
    let gapOps : List Op :=
      match gapAction alignedInBefore alignedInAfter with
      | none => []
      | some action => [gapOpOf action positionInBefore positionInAfter m]
    let equalOps : List Op :=
      if m.length ≠ 0 then [eqOpOf m] else []
    gapOps ++ equalOps ++ opsWalk rest (m.endInBefore + 1) (m.endInAfter + 1)

/-- `calculateOperations` before its final `postProcessOperations` call:
append the synthetic terminal match and walk the matches from cursor
`(0, 0)`. -/
def calculateOperationsRaw (beforeTokens afterTokens : List Token) : List Op :=
  let matchList := findMatchingBlocks beforeTokens afterTokens ++
    [⟨beforeTokens.length, afterTokens.length, 0⟩]
  opsWalk matchList 0 0

/-- `isSingleWhitespace(op)` from `postProcessOperations`: an `equal`
operation spanning exactly one before-token whose text matches `/^\s$/`
(a single whitespace character).  An `undefined` `endInBefore` makes the
JavaScript subtraction `NaN`, which fails the `!== 0` test. -/
def isSingleWhitespace (beforeTokens : List Token) (op : Op) : Bool :=
  if op.action ≠ .equal then false
  else match op.endInBefore with
    | none => false
    | some e =>
      if e - op.startInBefore ≠ 0 then false
      else
        match (jsSlice beforeTokens op.startInBefore (e + 1)).flatten with
        | [c] => isWhitespaceChar c
        | _ => false

/-- The merge test of `postProcessOperations`: fold the current operation
into the previous one when it is a single-whitespace `equal` following a
`replace`, or a `replace` following a `replace`. -/
def shouldMerge (beforeTokens : List Token) (op lastOp : Op) : Bool :=
  (isSingleWhitespace beforeTokens op && lastOp.action = .replace) ||
  (op.action = .replace && lastOp.action = .replace)

/-- The loop of `postProcessOperations` after the first operation has been
pushed: `lastOp` is the most recently emitted operation (the source
mutates it in place inside `processed`; here it is carried separately and
emitted when the next non-merging operation arrives). -/
def postProcessLoop (beforeTokens : List Token) : List Op → Op → List Op
  | [], lastOp => [lastOp]
  | op :: rest, lastOp =>
    if shouldMerge beforeTokens op lastOp then
      postProcessLoop beforeTokens rest
        { lastOp with endInBefore := op.endInBefore, endInAfter := op.endInAfter }
    else
      lastOp :: postProcessLoop beforeTokens rest op

/-- `postProcessOperations(operations, beforeTokens)`.  The initial dummy
`lastOp = { action: 'none' }` never satisfies a merge condition (both
require `lastOp.action === 'replace'`), so the first operation is always
pushed. -/
def postProcessOperations (operations : List Op) (beforeTokens : List Token) : List Op :=
  match operations with
  | [] => []
  | op :: rest => postProcessLoop beforeTokens rest op

/-- `calculateOperations(beforeTokens, afterTokens)` on present (non-null)
token sequences: derive the raw operations and post-process them. -/
def calculateOperationsOk (beforeTokens afterTokens : List Token) : List Op :=
  postProcessOperations (calculateOperationsRaw beforeTokens afterTokens) beforeTokens

/-- `calculateOperations` including its two input guards: a missing
(`null`/`undefined`, here `none`) token sequence throws
(`beforeTokens is required` / `afterTokens is required`); an empty array
is truthy in JavaScript and passes the guard. -/
def calculateOperations (beforeTokens afterTokens : Option (List Token)) :
    Except String (List Op) :=
  match beforeTokens with
  | none => .error "beforeTokens is required"
  | some bt =>
    match afterTokens with
    | none => .error "afterTokens is required"
    | some aft => .ok (calculateOperationsOk bt aft)

/-- `getTextPosition(tokens, startToken, endToken)`: the character length
of the concatenation of `tokens.slice(startToken, endToken)`. -/
def getTextPosition (tokens : List Token) (startToken endToken : Int) : Nat :=
  ((jsSlice tokens startToken endToken).flatten).length

/-- A structured diff record, one constructor per distinct field shape
produced by the source:
* `equalSimple` — the fast-path record of `diff` for identical inputs,
  with fields `type`, `text`, `startPosition`, `endPosition`, `length`;
* `equalFull` — the `equal` record of `createDiffObjects`, with fields
  `beforeStartPosition`, `beforeEndPosition`, `afterStartPosition`,
  `afterEndPosition`;
* `insert` — `text`, `afterStartPosition`, `afterEndPosition`, `length`,
  `beforePosition`;
* `delete` — `text`, `beforeStartPosition`, `beforeEndPosition`,
  `length`, `afterPosition`;
* `replace` — `oldText`, `newText`, both offset pairs, `oldLength`,
  `newLength`. -/
inductive DiffRecord where
  | equalSimple (text : String) (startPosition endPosition : Int) (length : Nat)
  | equalFull (text : String)
      (beforeStartPosition beforeEndPosition afterStartPosition afterEndPosition : Int)
      (length : Nat)
  | insert (text : String) (afterStartPosition afterEndPosition : Int) (length : Nat)
      (beforePosition : Nat)
  | delete (text : String) (beforeStartPosition beforeEndPosition : Int) (length : Nat)
      (afterPosition : Nat)
  | replace (oldText newText : String)
      (beforeStartPosition beforeEndPosition afterStartPosition afterEndPosition : Int)
      (oldLength newLength : Nat)
deriving DecidableEq, Repr

/-- One iteration of the `switch (op.action)` loop of `createDiffObjects`.
For the `insert` and `delete` anchors the source computes
`op.startInBefore || beforeTokens.length` (resp. the after-side mirror):
`||` takes the right operand whenever the left is falsy, so a start of
`0` is replaced by the whole other token count. -/
def diffObjectOf (beforeTokens afterTokens : List Token) (op : Op) : List DiffRecord :=
  match op.action with
  | .equal =>
    match op.endInBefore with
    | none => []
    | some e =>
      let equalText := (jsSlice beforeTokens op.startInBefore (e + 1)).flatten
      let beforeStart := getTextPosition beforeTokens 0 op.startInBefore
      let afterStart := getTextPosition afterTokens 0 op.startInAfter
      [.equalFull ⟨equalText⟩
        beforeStart ((beforeStart : Int) + equalText.length - 1)
        afterStart ((afterStart : Int) + equalText.length - 1)
        equalText.length]
  | .insert =>
    match op.endInAfter with
    | none => []
    | some e =>
      let insertedText := (jsSlice afterTokens op.startInAfter (e + 1)).flatten
      let insertAfterStart := getTextPosition afterTokens 0 op.startInAfter
      [.insert ⟨insertedText⟩
        insertAfterStart ((insertAfterStart : Int) + insertedText.length - 1)
        insertedText.length
        (getTextPosition beforeTokens 0
          (if op.startInBefore = 0 then (beforeTokens.length : Int) else op.startInBefore))]
  | .delete =>
    match op.endInBefore with
    | none => []
    | some e =>
      let deletedText := (jsSlice beforeTokens op.startInBefore (e + 1)).flatten
      let deleteBeforeStart := getTextPosition beforeTokens 0 op.startInBefore
      [.delete ⟨deletedText⟩
        deleteBeforeStart ((deleteBeforeStart : Int) + deletedText.length - 1)
        deletedText.length
        (getTextPosition afterTokens 0
          (if op.startInAfter = 0 then (afterTokens.length : Int) else op.startInAfter))]
  | .replace =>
    match op.endInBefore, op.endInAfter with
    | some eB, some eA =>
      let deletedTextReplace := (jsSlice beforeTokens op.startInBefore (eB + 1)).flatten
      let insertedTextReplace := (jsSlice afterTokens op.startInAfter (eA + 1)).flatten
      let replaceBeforeStart := getTextPosition beforeTokens 0 op.startInBefore
      let replaceAfterStart := getTextPosition afterTokens 0 op.startInAfter
      [.replace ⟨deletedTextReplace⟩ ⟨insertedTextReplace⟩
        replaceBeforeStart ((replaceBeforeStart : Int) + deletedTextReplace.length - 1)
        replaceAfterStart ((replaceAfterStart : Int) + insertedTextReplace.length - 1)
        deletedTextReplace.length insertedTextReplace.length]
    | _, _ => []

/-- `createDiffObjects(before, after, beforeTokens, afterTokens,
operations)` — the `before`/`after` strings are parameters of the source
function but are never read (all text is rebuilt from tokens). -/
def createDiffObjects (beforeTokens afterTokens : List Token) (operations : List Op) :
    List DiffRecord :=
  (operations.map (diffObjectOf beforeTokens afterTokens)).flatten

/-- `diff(before, after)`: the structured entry point, with its
`before === after` fast path returning a single record with a shared
`startPosition` / `endPosition` coordinate pair. -/
def diff (before after : String) : List DiffRecord :=
  if before = after then
    [.equalSimple before 0 ((before.length : Int) - 1) before.length]
  else
    let beforeTokens := htmlToTokens before.data
    let afterTokens := htmlToTokens after.data
    let operations := calculateOperationsOk beforeTokens afterTokens
    createDiffObjects beforeTokens afterTokens operations

/-- `isTag(token)`: `/^\s*<[^>]+>\s*$/.test(token)` — optional
whitespace, `<`, one or more non-`>` characters, `>`, optional
whitespace. -/
def isTag (token : Token) : Bool :=
  match token.dropWhile isWhitespaceChar with
  | '<' :: rest =>
    let body := rest.takeWhile (fun c => !(c = '>'))
    !body.isEmpty &&
      (match rest.drop body.length with
       | '>' :: tail => tail.all isWhitespaceChar
       | _ => false)
  | _ => false

/-- `consecutiveWhere(start, content, predicate)`: the source scans
`content.slice(start)` recording the last index where the predicate
returned `true` and breaking at the first `false`; for a boolean
predicate this is exactly the longest satisfying prefix. -/
def consecutiveWhere (start : Nat) (content : List Token) (p : Token → Bool) : List Token :=
  (content.drop start).takeWhile p

/-- The `while (position < length)` loop of `wrapWithTag`, operating on
the remaining suffix `content.drop position`: take the non-tag run, wrap
it if non-empty, stop if exhausted, then emit the following tag run
verbatim and continue.  Driven by structurally decreasing fuel; each
iteration consumes at least one token, so the fuel chosen by
`wrapWithTag` never runs out (`wrapLoop_eq_chunks` below). -/
def wrapLoop (tagOpen tagClose : List Char) : Nat → List Token → List Char
  | 0, _ => []
  | _, [] => []
  | fuel + 1, rest =>
    let nonTags := rest.takeWhile (fun t => !isTag t)
    let rendering₁ : List Char :=
      if nonTags.length > 0 then tagOpen ++ nonTags.flatten ++ tagClose else []
    let rest₁ := rest.drop nonTags.length
    if rest₁.isEmpty then rendering₁
    else
      let tags := rest₁.takeWhile isTag
      rendering₁ ++ tags.flatten ++ wrapLoop tagOpen tagClose fuel (rest₁.drop tags.length)

/-- `wrapWithTag(tag, content)`: wrap the non-tag runs of `content` in
`<tag>...</tag>`, leaving tag tokens verbatim. -/
def wrapWithTag (tag : List Char) (content : List Token) : List Char :=
  wrapLoop ('<' :: tag ++ ['>']) ('<' :: '/' :: tag ++ ['>']) (content.length + 1) content

/-- The `operationMap` built in the constructor: per-action rendering of
one operation.  `equal` emits the literal before-text; `insert` / `delete`
wrap the relevant token run in `ins` / `del`; `replace` emits the insert
rendering immediately followed by the delete rendering.  (An `undefined`
end makes the JavaScript slice argument `undefined + 1 = NaN`, which
clamps to an empty slice.) -/
def operationMap (beforeTokens afterTokens : List Token) (op : Op) : List Char :=
  match op.action with
  | .equal =>
    match op.endInBefore with
    | some e => (jsSlice beforeTokens op.startInBefore (e + 1)).flatten
    | none => []
  | .insert =>
    match op.endInAfter with
    | some e => wrapWithTag ['i', 'n', 's'] (jsSlice afterTokens op.startInAfter (e + 1))
    | none => wrapWithTag ['i', 'n', 's'] []
  | .delete =>
    match op.endInBefore with
    | some e => wrapWithTag ['d', 'e', 'l'] (jsSlice beforeTokens op.startInBefore (e + 1))
    | none => wrapWithTag ['d', 'e', 'l'] []
  | .replace =>
    (match op.endInAfter with
     | some e => wrapWithTag ['i', 'n', 's'] (jsSlice afterTokens op.startInAfter (e + 1))
     | none => wrapWithTag ['i', 'n', 's'] []) ++
    (match op.endInBefore with
     | some e => wrapWithTag ['d', 'e', 'l'] (jsSlice beforeTokens op.startInBefore (e + 1))
     | none => wrapWithTag ['d', 'e', 'l'] [])

/-- Modelled from the spec: `diffToHTML` ends with
`return this.renderOperations(beforeTokens, afterTokens, operations)`,
but no `renderOperations` method is defined anywhere in the repository,
so the source call throws a `TypeError` at runtime.  Per the markup
renderer contract (spec section 4.8), each operation is rendered by its
kind — exactly what the source's `operationMap` closures compute — and
the renderings are concatenated in operation order. -/
def renderOperations (beforeTokens afterTokens : List Token) (operations : List Op) :
    List Char :=
  (operations.map (operationMap beforeTokens afterTokens)).flatten

/-- `diffToHTML(before, after)` (named `diffToMarkup` in the spec), with
its `before === after` fast path; the general path uses the
spec-modelled `renderOperations` above. -/
def diffToHTML (before after : String) : String :=
  if before = after then before
  else
    let beforeTokens := htmlToTokens before.data
    let afterTokens := htmlToTokens after.data
    let operations := calculateOperationsOk beforeTokens afterTokens
    ⟨renderOperations beforeTokens afterTokens operations⟩

/-! ## Tag safety of the wrapper -/

/-- Alternating decomposition of a token run: maximal sub-runs of tokens
with the same `isTag` classification, each labelled by that
classification.  This is the reference decomposition against which
`wrapWithTag` is verified. -/
def chunkAlt : List Token → List (Bool × List Token)
  | [] => []
  | t :: rest =>
    (isTag t, t :: rest.takeWhile (fun x => isTag x = isTag t)) ::
      chunkAlt (rest.drop (rest.takeWhile (fun x => isTag x = isTag t)).length)
termination_by l => l.length
decreasing_by
  simp only [List.length_cons, List.length_drop]
  omega

/-- Rendering of one chunk: non-tag chunks are wrapped between `tagOpen`
and `tagClose`, tag chunks are emitted verbatim. -/
def renderChunk (tagOpen tagClose : List Char) : Bool × List Token → List Char
  | (false, run) => tagOpen ++ run.flatten ++ tagClose
  | (true, run) => run.flatten

/-! ## Bounds of `findMatch` -/

/-- Bounds invariant for the `matchLengthAt` map while scanning row
`indexInBefore` of the range `[startInBefore, endInBefore) ×
[startInAfter, endInAfter)`: every recorded run length ends inside the
after-range and fits inside both ranges (the bound `B` is the number of
rows available so far). -/
def MlaBnd (sA eA : Nat) (B : Int) (mla : Int → Nat) : Prop :=
  ∀ j : Int, mla j ≠ 0 → (sA : Int) ≤ j ∧ j < (eA : Int) ∧
    ((mla j : Int) ≤ j + 1 - sA ∧ (mla j : Int) ≤ B)

/-- Bounds invariant for the running best match of `findMatch`: either
still the initial sentinel (length `0`), or a non-empty run lying inside
the scanned ranges. -/
def BestBnd (sB eB sA eA : Nat) (best : Best) : Prop :=
  (best.len = 0 ∧ best.inBefore = (sB : Int) ∧ best.inAfter = (sA : Int)) ∨
  (1 ≤ best.len ∧ (sB : Int) ≤ best.inBefore ∧ best.inBefore + best.len ≤ (eB : Int) ∧
    (sA : Int) ≤ best.inAfter ∧ best.inAfter + best.len ≤ (eA : Int))

/-! ## Chained matching blocks -/

/-- `Chained pB pA ms qB qA`: the matches `ms` are non-empty, ordered and
non-overlapping in both coordinate spaces, starting no earlier than the
cursor `(pB, pA)` and ending no later than `(qB, qA)`. -/
def Chained : Nat → Nat → List Match → Nat → Nat → Prop
  | pB, pA, [], qB, qA => pB ≤ qB ∧ pA ≤ qA
  | pB, pA, m :: ms, qB, qA =>
    pB ≤ m.startInBefore ∧ pA ≤ m.startInAfter ∧ 1 ≤ m.length ∧
    Chained (m.startInBefore + m.length) (m.startInAfter + m.length) ms qB qA

/-! ## Coverage of the operation list -/

/-- The integers `s, s+1, ..., e` (empty when `e < s`). -/
def intsFromTo (s e : Int) : List Int :=
  (List.range (e + 1 - s).toNat).map (fun (k : Nat) => s + (k : Int))

/-- The before-side token indices covered by one operation: `insert`
operations cover nothing on the before side. -/
def covBefore (op : Op) : List Int :=
  match op.action with
  | .insert => []
  | _ =>
    match op.endInBefore with
    | some e => intsFromTo op.startInBefore e
    | none => []

/-- The after-side token indices covered by one operation: `delete`
operations cover nothing on the after side. -/
def covAfter (op : Op) : List Int :=
  match op.action with
  | .delete => []
  | _ =>
    match op.endInAfter with
    | some e => intsFromTo op.startInAfter e
    | none => []

/-- Shape invariant of one operation relative to a cursor pair: the
operation starts at the cursor in both coordinates and moves the cursor
to `(pB', pA')`, covering exactly the indices in between on each side
(`insert` covers no before-indices, `delete` no after-indices). -/
def OpOk (pB pA : Int) (op : Op) (pB' pA' : Int) : Prop :=
  op.startInBefore = pB ∧ op.startInAfter = pA ∧
  match op.action with
  | .insert => op.endInBefore = none ∧ pB' = pB ∧
      ∃ e, op.endInAfter = some e ∧ pA ≤ e ∧ pA' = e + 1
  | .delete => op.endInAfter = none ∧ pA' = pA ∧
      ∃ e, op.endInBefore = some e ∧ pB ≤ e ∧ pB' = e + 1
  | _ =>
      ∃ eB' eA', op.endInBefore = some eB' ∧ op.endInAfter = some eA' ∧
        pB ≤ eB' ∧ pA ≤ eA' ∧ pB' = eB' + 1 ∧ pA' = eA' + 1

/-- `Tiles pB pA ops qB qA`: walking `ops` from the cursor pair
`(pB, pA)` covers both index ranges exactly, gap- and overlap-free, up to
`(qB, qA)`. -/
inductive Tiles : Int → Int → List Op → Int → Int → Prop where
  | nil (pB pA : Int) : Tiles pB pA [] pB pA
  | cons {pB pA pB' pA' qB qA : Int} {op : Op} {rest : List Op} :
      OpOk pB pA op pB' pA' → Tiles pB' pA' rest qB qA → Tiles pB pA (op :: rest) qB qA

/-! ## Full characterization of `findMatch` (longest run, first-found tie-break) -/

/-- `chainLen bt aT sB eB sA eA i j`: the length of the run of
pairwise-equal tokens ending at cell `(i, j)` and confined to the ranges
`[sB, eB) × [sA, eA)` — the reference value of the dynamic-programming
entry `matchLengthAt[j]` after row `i`. -/
def chainLen (bt aT : List Token) (sB eB sA eA : Nat) : Nat → Nat → Nat
  | i, j =>
    if sB ≤ i ∧ i < eB ∧ sA ≤ j ∧ j < eA ∧ bt[i]? ≠ none ∧ bt[i]? = aT[j]? then
      (if i = 0 ∨ j = 0 then 0 else chainLen bt aT sB eB sA eA (i - 1) (j - 1)) + 1
    else 0
termination_by i _ => i
decreasing_by
  omega

/-- `chainLen` read at `Int` coordinates, `0` outside the first
quadrant — the value the `matchLengthAt` map (keyed by `Int` to model
JavaScript's read of key `-1`) holds for every key. -/
def chainAtI (bt aT : List Token) (sB eB sA eA : Nat) (i j : Int) : Nat :=
  if 0 ≤ i ∧ 0 ≤ j then chainLen bt aT sB eB sA eA i.toNat j.toNat else 0

/-- A run of `L ≥ 1` pairwise-equal tokens at `(s, t)` inside the ranges
`[sB, eB) × [sA, eA)` — the specification-side notion of a common
block. -/
def IsRun (bt aT : List Token) (sB eB sA eA s t L : Nat) : Prop :=
  1 ≤ L ∧ sB ≤ s ∧ s + L ≤ eB ∧ sA ≤ t ∧ t + L ≤ eA ∧
  ∀ k < L, bt[s + k]? ≠ none ∧ bt[s + k]? = aT[t + k]?

/-- Cell `(i', j')` lies strictly before position `(i, T)` in the scan
order of `findMatch` (rows ascending, columns ascending within a row). -/
def CellLt (i' j' i : Nat) (T : Int) : Prop :=
  i' < i ∨ (i' = i ∧ (j' : Int) < T)

/-- Cell `(ie, je)` is found no later than `(i', j')` in the scan
order. -/
def ScanLe (ie je i' j' : Nat) : Prop :=
  ie < i' ∨ (ie = i' ∧ je ≤ j')

/-- Invariant of the running best of `findMatch`, the cells scanned so
far being those before `(i, T)`: either nothing matched yet (the initial
state), or the best records the first-found cell of maximal chain length
among the scanned cells. -/
def BestPart (bt aT : List Token) (sB eB sA eA i : Nat) (T : Int) (best : Best) : Prop :=
  (best.len = 0 ∧ best.inBefore = (sB : Int) ∧ best.inAfter = (sA : Int) ∧
    ∀ i' j', CellLt i' j' i T → chainLen bt aT sB eB sA eA i' j' = 0) ∨
  (1 ≤ best.len ∧ ∃ ie je : Nat, CellLt ie je i T ∧
    chainLen bt aT sB eB sA eA ie je = best.len ∧
    best.inBefore = (ie : Int) - best.len + 1 ∧
    best.inAfter = (je : Int) - best.len + 1 ∧
    (∀ i' j', CellLt i' j' i T → chainLen bt aT sB eB sA eA i' j' ≤ best.len) ∧
    (∀ i' j', CellLt i' j' i T → chainLen bt aT sB eB sA eA i' j' = best.len →
      ScanLe ie je i' j'))

/-- Final form of the best invariant, all cells scanned. -/
def BestFinal (bt aT : List Token) (sB eB sA eA : Nat) (best : Best) : Prop :=
  (best.len = 0 ∧ best.inBefore = (sB : Int) ∧ best.inAfter = (sA : Int) ∧
    ∀ i' j', chainLen bt aT sB eB sA eA i' j' = 0) ∨
  (1 ≤ best.len ∧ ∃ ie je : Nat,
    chainLen bt aT sB eB sA eA ie je = best.len ∧
    best.inBefore = (ie : Int) - best.len + 1 ∧
    best.inAfter = (je : Int) - best.len + 1 ∧
    (∀ i' j', chainLen bt aT sB eB sA eA i' j' ≤ best.len) ∧
    (∀ i' j', chainLen bt aT sB eB sA eA i' j' = best.len → ScanLe ie je i' j'))

/-! ## Tokenization losslessness -/

theorem flatten_flushToken (tokens : List Token) (cur : Token) :
    (flushToken tokens cur).flatten = tokens.flatten ++ cur := by
  unfold flushToken
  split <;> simp_all

theorem tokenStep_flatten (st : TokState) (c : Char) :
    (tokenStep st c).tokens.flatten ++ (tokenStep st c).currentToken
      = st.tokens.flatten ++ st.currentToken ++ [c] := by
  rcases st with ⟨toks, cur, mode⟩
  cases mode <;> simp only [tokenStep] <;> split_ifs <;>
    simp [flatten_flushToken]

theorem foldl_tokenStep_flatten (l : List Char) :
    ∀ st : TokState,
      (l.foldl tokenStep st).tokens.flatten ++ (l.foldl tokenStep st).currentToken
        = st.tokens.flatten ++ st.currentToken ++ l := by
  induction l with
  | nil => intro st; simp
  | cons c rest ih =>
    intro st
    simp only [List.foldl_cons]
    rw [ih (tokenStep st c), tokenStep_flatten]
    simp

/-- C3: tokenization is lossless and total — for every string `s`,
concatenating in order all tokens returned by `htmlToTokens` yields
exactly `s`. -/
theorem c3_tokenization_lossless (s : String) : (htmlToTokens s.data).flatten = s.data := by
  have h := foldl_tokenStep_flatten s.data ⟨[], [], .char⟩
  simpa [htmlToTokens, flatten_flushToken] using h

/-! ## Tokenizer mode transitions -/

/-- C8 counterexample: a `<` read while already inside a tag token does
not terminate that token — `"<a<b>"` tokenizes to the single token
`"<a<b>"`, not to `"<a"` followed by `"<b>"` as the claim would
require. -/
theorem c8_counterexample :
    htmlToTokens ['<', 'a', '<', 'b', '>'] = [['<', 'a', '<', 'b', '>']] ∧
    htmlToTokens ['<', 'a', '<', 'b', '>'] ≠ [['<', 'a'], ['<', 'b', '>']] := by
  constructor <;> decide

/-- C8 amended: `<` starts a new tag token, flushing any in-progress
token, from `char` and `whitespace` modes only; while in `tag` mode every
character (`<` included) is appended to the current tag token, which
closes exactly at the first `>` (inclusive), after which the mode is
chosen by classifying the terminating character as whitespace or not. -/
theorem c8_tag_transitions (toks : List Token) (cur : Token) (c : Char) :
    tokenStep ⟨toks, cur, .char⟩ '<' = ⟨flushToken toks cur, ['<'], .tag⟩
    ∧ tokenStep ⟨toks, cur, .whitespace⟩ '<' = ⟨flushToken toks cur, ['<'], .tag⟩
    ∧ tokenStep ⟨toks, cur, .tag⟩ c =
        (if isEndOfTag c then
          ⟨toks ++ [cur ++ [c]], [], if isWhitespace c then .whitespace else .char⟩
        else ⟨toks, cur ++ [c], .tag⟩) := by
  refine ⟨?_, ?_, ?_⟩ <;> simp only [tokenStep] <;> split <;>
    simp_all [isStartOfTag, isEndOfTag]

/-! ## The identity diff -/

/-- C2 counterexample: `diff("a", "a")` returns the fast-path record
carrying a single `startPosition`/`endPosition` pair, not the equal
record with the four documented per-side position fields. -/
theorem c2_counterexample :
    diff "a" "a" = [DiffRecord.equalSimple "a" 0 0 1] ∧
    diff "a" "a" ≠ [DiffRecord.equalFull "a" 0 0 0 0 1] := by
  constructor <;> decide

/-- C2 amended: for every string `s`, `diff(s, s)` returns exactly one
`equal` record whose text is `s` and whose length is `len(s)`, spanning
`[0, len(s) - 1]` as the single pair of fields `startPosition` /
`endPosition` (not the four per-side fields of the general equal
record). -/
theorem c2_identity (s : String) :
    diff s s = [DiffRecord.equalSimple s 0 ((s.length : Int) - 1) s.length] := by
  simp [diff]

/-! ## The missing `renderOperations` and the replace rendering order -/

/-- C1: on the claim's inputs, the pipeline up to operation calculation
together with the spec-modelled `renderOperations` (the method the source
calls but never defines) yields exactly the claimed markup, with the
insert-wrapped new text immediately before the delete-wrapped old
text. -/
theorem c1_markup_value :
    diffToHTML "this is original text" "this is new text"
      = "this is <ins>new</ins><del>original</del> text" := by
  decide

/-! ## Insert/delete anchor offsets -/

/-- C5: evaluating `diff("b", "a b")` — the inserted run `"a "` sits at a
gap starting at token index 0 of the before sequence, yet its
`beforePosition` anchor is `1` (the length of the whole before string),
because `op.startInBefore || beforeTokens.length` takes the right
operand when `startInBefore` is the falsy number `0`; the claim (and the
spec) require `0` there. -/
theorem c5_anchor_at_zero_gap :
    diff "b" "a b"
      = [DiffRecord.insert "a " 0 1 2 1, DiffRecord.equalFull "b" 0 0 2 2 1] := by
  decide

/-! ## Error handling of `calculateOperations` -/

/-- C6: `calculateOperations` fails exactly when a required token
sequence is absent (`none`); on any two present token sequences — empty
or not — it returns a well-defined operation list and never fails. -/
theorem c6_error_iff_absent (obt oaft : Option (List Token)) :
    ((∃ msg, calculateOperations obt oaft = Except.error msg) ↔ obt = none ∨ oaft = none)
    ∧ ∀ bt aft, calculateOperations (some bt) (some aft)
        = Except.ok (calculateOperationsOk bt aft) := by
  constructor
  · constructor
    · rintro ⟨msg, hmsg⟩
      cases obt <;> cases oaft <;> simp_all [calculateOperations]
    · rintro (rfl | rfl)
      · exact ⟨"beforeTokens is required", rfl⟩
      · cases obt with
        | none => exact ⟨"beforeTokens is required", rfl⟩
        | some bt => exact ⟨"afterTokens is required", rfl⟩
  · intro bt aft
    rfl

/-! ## Unterminated tag tokens and the wrapper -/

/-- C10: a token beginning with `<` that contains no `>` fails the
structural tag pattern `isTag`, and `wrapWithTag` therefore treats it as
ordinary text, emitting it inside the `<tag>...</tag>` wrapper rather
than verbatim. -/
theorem c10_unclosed_tag_wrapped (t : Token) (tag : List Char)
    (h1 : t.head? = some '<') (h2 : '>' ∉ t) :
    isTag t = false ∧
    wrapWithTag tag [t] = ('<' :: tag ++ ['>']) ++ t ++ ('<' :: '/' :: tag ++ ['>']) := by
  obtain ⟨rest, rfl⟩ : ∃ rest, t = '<' :: rest := by
    cases t with
    | nil => simp at h1
    | cons a l =>
      simp only [List.head?_cons, Option.some.injEq] at h1
      exact ⟨l, by rw [h1]⟩
  have hw : isWhitespaceChar '<' = false := by decide
  have hdrop : ('<' :: rest).dropWhile isWhitespaceChar = '<' :: rest := by
    rw [List.dropWhile_cons, hw]
    simp
  have hbody : rest.takeWhile (fun c => !(c = '>')) = rest := by
    refine List.takeWhile_eq_self_iff.mpr (fun a ha => ?_)
    simp only [Bool.not_eq_true', decide_eq_false_iff_not]
    intro h
    exact h2 (List.mem_cons_of_mem _ (h ▸ ha))
  have htag : isTag ('<' :: rest) = false := by
    unfold isTag
    rw [hdrop]
    simp only [hbody, List.drop_length]
    simp
  refine ⟨htag, ?_⟩
  simp [wrapWithTag, wrapLoop, htag, List.takeWhile_cons]

theorem takeWhile_not_isTag (l : List Token) :
    l.takeWhile (fun x => !isTag x) = l.takeWhile (fun x => isTag x = false) := by
  have h : (fun x : Token => !isTag x) = (fun x => decide (isTag x = false)) := by
    funext x
    cases isTag x <;> simp
  rw [h]

theorem takeWhile_isTag_true (l : List Token) :
    l.takeWhile isTag = l.takeWhile (fun x => isTag x = true) := by
  have h : ∀ l' : List Token,
      l'.takeWhile (fun x => decide (isTag x = true)) = l'.takeWhile isTag := by
    intro l'
    induction l' with
    | nil => rfl
    | cons a l' ih =>
      rw [List.takeWhile_cons, List.takeWhile_cons]
      cases isTag a <;> simp [ih]
  exact (h l).symm

theorem drop_length_takeWhile (p : Token → Bool) (l : List Token) :
    l.drop (l.takeWhile p).length = l.dropWhile p := by
  induction l with
  | nil => rfl
  | cons a l ih =>
    rw [List.takeWhile_cons, List.dropWhile_cons]
    cases p a <;> simp [ih]

/-- Every chunk of `chunkAlt` is non-empty and homogeneous: its tokens
all have the `isTag` classification recorded in its label. -/
theorem chunkAlt_chunks (l : List Token) :
    ∀ q ∈ chunkAlt l, q.2 ≠ [] ∧ ∀ t ∈ q.2, isTag t = q.1 := by
  induction l using chunkAlt.induct with
  | case1 => simp [chunkAlt]
  | case2 t rest ih =>
    intro q hq
    rw [chunkAlt] at hq
    rcases List.mem_cons.mp hq with rfl | hq
    · refine ⟨by simp, ?_⟩
      show ∀ x ∈ t :: rest.takeWhile (fun x => isTag x = isTag t), isTag x = isTag t
      intro x hx
      rcases List.mem_cons.mp hx with rfl | hx
      · rfl
      · simpa using List.mem_takeWhile_imp hx
    · exact ih q hq

/-- Concatenating the chunks of `chunkAlt` restores the token run. -/
theorem chunkAlt_flatten (l : List Token) :
    ((chunkAlt l).map Prod.snd).flatten = l := by
  induction l using chunkAlt.induct with
  | case1 => simp [chunkAlt]
  | case2 t rest ih =>
    rw [chunkAlt]
    simp only [List.map_cons, List.flatten_cons, ih]
    rw [drop_length_takeWhile]
    simp [List.takeWhile_append_dropWhile]

theorem dropWhile_isTag_true (l : List Token) :
    l.dropWhile isTag = l.dropWhile (fun x => isTag x = true) := by
  induction l with
  | nil => rfl
  | cons a l ih =>
    rw [List.dropWhile_cons, List.dropWhile_cons]
    cases isTag a <;> simp [ih]

/-- The labels of consecutive chunks of `chunkAlt` differ — each chunk is
a maximal homogeneous sub-run. -/
theorem chunkAlt_alternates (l : List Token) :
    (chunkAlt l).Chain' (fun q r => q.1 ≠ r.1) := by
  induction l using chunkAlt.induct with
  | case1 => simp [chunkAlt]
  | case2 t rest ih =>
    rw [chunkAlt]
    refine List.chain'_cons'.mpr ⟨?_, ih⟩
    intro r hr
    rw [drop_length_takeWhile] at hr
    cases hdw : rest.dropWhile (fun x => isTag x = isTag t) with
    | nil => rw [hdw] at hr; simp [chunkAlt] at hr
    | cons t' rest' =>
      have hne : rest.dropWhile (fun x => decide (isTag x = isTag t)) ≠ [] := by
        rw [hdw]; simp
      have hflag := List.head_dropWhile_not (fun x => decide (isTag x = isTag t)) rest hne
      rw [hdw] at hr
      rw [chunkAlt] at hr
      simp only [List.head?_cons, Option.mem_def, Option.some.injEq] at hr
      subst hr
      show isTag t ≠ isTag t'
      simp only [hdw, List.head_cons, decide_eq_false_iff_not] at hflag
      exact fun hbad => hflag (hbad ▸ rfl)

/-- Defining equation of `wrapLoop` on positive fuel and a non-empty
suffix, as a plain `rfl` unfold. -/
theorem wrapLoop_cons (tagOpen tagClose : List Char) (fuel : Nat) (t : Token)
    (rest : List Token) :
    wrapLoop tagOpen tagClose (fuel + 1) (t :: rest)
      = (if ((t :: rest).takeWhile (fun x => !isTag x)).length > 0 then
            tagOpen ++ ((t :: rest).takeWhile (fun x => !isTag x)).flatten ++ tagClose
          else []) ++
        (if ((t :: rest).drop ((t :: rest).takeWhile (fun x => !isTag x)).length).isEmpty then
          []
        else
          (((t :: rest).drop
              ((t :: rest).takeWhile (fun x => !isTag x)).length).takeWhile isTag).flatten ++
          wrapLoop tagOpen tagClose fuel
            (((t :: rest).drop ((t :: rest).takeWhile (fun x => !isTag x)).length).drop
              ((((t :: rest).drop
                  ((t :: rest).takeWhile (fun x => !isTag x)).length).takeWhile isTag)).length)) := by
  show (if _ then _ else _) = _
  split <;> simp [wrapLoop]

/-- The fuel-driven `wrapLoop` computes exactly the chunk rendering for
any fuel exceeding the number of tokens: in particular the fuel chosen by
`wrapWithTag` never runs out. -/
theorem wrapLoop_eq_chunks (tagOpen tagClose : List Char) :
    ∀ (fuel : Nat) (l : List Token), l.length < fuel →
      wrapLoop tagOpen tagClose fuel l
        = ((chunkAlt l).map (renderChunk tagOpen tagClose)).flatten := by
  intro fuel
  induction fuel with
  | zero => intro l h; omega
  | succ fuel ih =>
    intro l hlen
    cases l with
    | nil => simp [wrapLoop, chunkAlt]
    | cons t rest =>
      simp only [List.length_cons] at hlen
      rw [wrapLoop_cons, chunkAlt]
      cases hb : isTag t with
      | false =>
        have hnt : (t :: rest).takeWhile (fun x => !isTag x)
            = t :: rest.takeWhile (fun x => isTag x = false) := by
          rw [List.takeWhile_cons, hb]
          simp [takeWhile_not_isTag]
        rw [hnt]
        simp only [hb, List.length_cons, List.drop_succ_cons, Nat.zero_lt_succ, if_pos,
          List.map_cons, List.flatten_cons, renderChunk]
        rw [drop_length_takeWhile]
        cases hdw : rest.dropWhile (fun x => isTag x = false) with
        | nil => simp [chunkAlt]
        | cons t' rest' =>
          have hne : rest.dropWhile (fun x => decide (isTag x = false)) ≠ [] := by
            rw [hdw]; simp
          have ht' : isTag t' = true := by
            have hflag := List.head_dropWhile_not (fun x => decide (isTag x = false)) rest hne
            simp only [hdw, List.head_cons, decide_eq_false_iff_not] at hflag
            simpa using hflag
          have hlen' : rest'.length < rest.length := by
            have hsub : (rest.dropWhile (fun x => decide (isTag x = false))).length
                ≤ rest.length := (List.dropWhile_sublist _).length_le
            rw [hdw] at hsub
            simp only [List.length_cons] at hsub
            omega
          have htags : (t' :: rest').takeWhile isTag
              = t' :: rest'.takeWhile (fun x => isTag x = true) := by
            rw [List.takeWhile_cons, ht']
            simp [takeWhile_isTag_true]
          rw [chunkAlt]
          simp only [ht', htags, List.isEmpty_cons, Bool.false_eq_true, if_false,
            List.length_cons, List.drop_succ_cons, List.map_cons, List.flatten_cons,
            renderChunk]
          rw [drop_length_takeWhile]
          rw [ih]
          exact lt_of_le_of_lt (List.Sublist.length_le (List.dropWhile_sublist _))
            (by omega)
      | true =>
        have hnt : (t :: rest).takeWhile (fun x => !isTag x) = [] := by
          rw [List.takeWhile_cons, hb]
          simp
        have htags : (t :: rest).takeWhile isTag
            = t :: rest.takeWhile (fun x => isTag x = true) := by
          rw [List.takeWhile_cons, hb]
          simp [takeWhile_isTag_true]
        rw [hnt]
        simp only [hb, List.length_nil, List.drop_zero, Nat.lt_irrefl, if_false,
          List.isEmpty_cons, Bool.false_eq_true, htags,
          List.length_cons, List.drop_succ_cons, List.map_cons, List.flatten_cons,
          renderChunk]
        rw [drop_length_takeWhile]
        rw [ih]
        · simp
        · exact lt_of_le_of_lt (List.Sublist.length_le (List.dropWhile_sublist _))
            (by omega)

/-- C9: `wrapWithTag` renders exactly the alternating decomposition of
its token run: each maximal non-tag sub-run is emitted inside one
`<tag>...</tag>` wrapper, and tag-pattern tokens are emitted verbatim in
the unwrapped sub-runs — so no emitted wrapper opens or closes inside an
HTML tag token, and no tag-pattern token ever sits inside a wrapped
span. -/
theorem c9_tag_safety (tag : List Char) (content : List Token) :
    wrapWithTag tag content
      = ((chunkAlt content).map
          (renderChunk ('<' :: tag ++ ['>']) ('<' :: '/' :: tag ++ ['>']))).flatten
    ∧ ((chunkAlt content).map Prod.snd).flatten = content
    ∧ (chunkAlt content).Chain' (fun q r => q.1 ≠ r.1)
    ∧ ∀ q ∈ chunkAlt content, q.2 ≠ [] ∧ ∀ t ∈ q.2, isTag t = q.1 := by
  refine ⟨?_, chunkAlt_flatten content, chunkAlt_alternates content, chunkAlt_chunks content⟩
  exact wrapLoop_eq_chunks _ _ (content.length + 1) content (by omega)

/-- Witness for `c10_unclosed_tag_wrapped` at the concrete unterminated
tag token `"<ab"` and wrapper tag `"ins"`. -/
theorem c10_witness :
    (['<', 'a', 'b'] : Token).head? = some '<' ∧ '>' ∉ (['<', 'a', 'b'] : Token) ∧
    (isTag ['<', 'a', 'b'] = false ∧
      wrapWithTag ['i', 'n', 's'] [['<', 'a', 'b']]
        = ('<' :: ['i', 'n', 's'] ++ ['>']) ++ ['<', 'a', 'b'] ++
          ('<' :: '/' :: ['i', 'n', 's'] ++ ['>'])) :=
  ⟨by decide, by decide,
    c10_unclosed_tag_wrapped ['<', 'a', 'b'] ['i', 'n', 's'] (by decide) (by decide)⟩

theorem innerLoop_bnd (sB eB sA eA i : Nat) (hrow1 : sB ≤ i) (hrow2 : i < eB)
    (mla : Int → Nat) (hmla : MlaBnd sA eA ((i : Int) - sB) mla) :
    ∀ (locs : List Nat) (newMla : Int → Nat) (best : Best),
      MlaBnd sA eA ((i : Int) + 1 - sB) newMla →
      BestBnd sB eB sA eA best →
      MlaBnd sA eA ((i : Int) + 1 - sB) (innerLoop sA eA i mla locs newMla best).1 ∧
      BestBnd sB eB sA eA (innerLoop sA eA i mla locs newMla best).2 := by
  intro locs
  induction locs with
  | nil => intro newMla best h1 h2; exact ⟨h1, h2⟩
  | cons j rest ih =>
    intro newMla best h1 h2
    rw [innerLoop]
    by_cases hlo : j < sA
    · rw [if_pos hlo]
      exact ih newMla best h1 h2
    · rw [if_neg hlo]
      by_cases hhi : eA ≤ j
      · rw [if_pos hhi]
        exact ⟨h1, h2⟩
      · rw [if_neg hhi]
        push_neg at hlo hhi
        have hsAj : (sA : Int) ≤ (j : Int) := by exact_mod_cast hlo
        have hjeA : (j : Int) < (eA : Int) := by exact_mod_cast hhi
        have hnewLen : ((mla ((j : Int) - 1) + 1 : Nat) : Int) ≤ (j : Int) + 1 - sA ∧
            ((mla ((j : Int) - 1) + 1 : Nat) : Int) ≤ (i : Int) + 1 - sB := by
          by_cases hz : mla ((j : Int) - 1) = 0
          · rw [hz]
            constructor <;> simp <;> omega
          · obtain ⟨ha, hb, hc, hd⟩ := hmla ((j : Int) - 1) hz
            push_cast
            omega
        refine ih _ _ ?_ ?_
        · intro k hk
          by_cases hkj : k = (j : Int)
          · subst hkj
            simp only [if_pos rfl] at hk ⊢
            exact ⟨hsAj, hjeA, hnewLen⟩
          · simp only [if_neg hkj] at hk ⊢
            exact h1 k hk
        · by_cases hup : best.len < mla ((j : Int) - 1) + 1
          · rw [if_pos hup]
            right
            dsimp only
            obtain ⟨hn1, hn2⟩ := hnewLen
            refine ⟨by omega, by omega, by omega, by omega, by omega⟩
          · rw [if_neg hup]
            exact h2

theorem outerLoop_bnd (beforeTokens : List Token) (index : Token → List Nat)
    (sB eB sA eA : Nat) :
    ∀ (steps i : Nat) (mla : Int → Nat) (best : Best),
      sB ≤ i → (steps = 0 ∨ i + steps ≤ eB) →
      MlaBnd sA eA ((i : Int) - sB) mla →
      BestBnd sB eB sA eA best →
      BestBnd sB eB sA eA (outerLoop beforeTokens index sA eA i steps mla best) := by
  intro steps
  induction steps with
  | zero => intro i mla best _ _ _ h2; rw [outerLoop]; exact h2
  | succ steps ih =>
    intro i mla best hsB hsteps hmla hbest
    rw [outerLoop]
    have hrow2 : i < eB := by omega
    have hinner := innerLoop_bnd sB eB sA eA i hsB hrow2 mla hmla
      (match beforeTokens[i]? with | some tok => index tok | none => [])
      (fun _ => 0) best (by intro j hj; simp at hj) hbest
    refine ih (i + 1) _ _ (by omega) (by omega) ?_ hinner.2
    have h := hinner.1
    have harith : ((i : Int)) + 1 - sB = ((i + 1 : Nat) : Int) - sB := by push_cast; ring
    rw [harith] at h
    exact h

/-- Any match returned by `findMatch` is a non-empty run lying entirely
inside the queried ranges. -/
theorem findMatch_bounds (beforeTokens : List Token) (index : Token → List Nat)
    (sB eB sA eA : Nat) (m : Match)
    (h : findMatch beforeTokens index sB eB sA eA = some m) :
    sB ≤ m.startInBefore ∧ m.startInBefore + m.length ≤ eB ∧
    sA ≤ m.startInAfter ∧ m.startInAfter + m.length ≤ eA ∧ 1 ≤ m.length := by
  unfold findMatch at h
  have hbest := outerLoop_bnd beforeTokens index sB eB sA eA (eB - sB) sB
    (fun _ => 0) ⟨sB, sA, 0⟩ (le_refl sB) (by omega)
    (by intro j hj; simp at hj) (Or.inl ⟨rfl, rfl, rfl⟩)
  set b := outerLoop beforeTokens index sA eA sB (eB - sB) (fun _ => 0) ⟨sB, sA, 0⟩ with hb
  by_cases hz : b.len ≠ 0
  · rw [if_pos hz] at h
    rcases hbest with ⟨h0, _, _⟩ | ⟨h1', h2', h3', h4', h5'⟩
    · exact absurd h0 hz
    · obtain rfl := Option.some.inj h
      refine ⟨?_, ?_, ?_, ?_, h1'⟩ <;> dsimp only <;> omega
  · rw [if_neg hz] at h
    exact absurd h (by simp)

theorem Chained.mono_start {pB pA pB' pA' qB qA : Nat} {ms : List Match}
    (h1 : pB' ≤ pB) (h2 : pA' ≤ pA) (h : Chained pB pA ms qB qA) :
    Chained pB' pA' ms qB qA := by
  cases ms with
  | nil => exact ⟨le_trans h1 h.1, le_trans h2 h.2⟩
  | cons m ms => exact ⟨le_trans h1 h.1, le_trans h2 h.2.1, h.2.2⟩

theorem Chained.append {pB pA rB rA qB qA : Nat} {l₁ l₂ : List Match}
    (h1 : Chained pB pA l₁ rB rA) (h2 : Chained rB rA l₂ qB qA) :
    Chained pB pA (l₁ ++ l₂) qB qA := by
  induction l₁ generalizing pB pA with
  | nil => exact h2.mono_start h1.1 h1.2
  | cons m ms ih => exact ⟨h1.1, h1.2.1, h1.2.2.1, ih h1.2.2.2⟩

theorem Chained.single {m : Match} {qB qA : Nat} (hlen : 1 ≤ m.length)
    (h1 : m.startInBefore + m.length ≤ qB) (h2 : m.startInAfter + m.length ≤ qA) :
    Chained m.startInBefore m.startInAfter [m] qB qA :=
  ⟨le_refl _, le_refl _, hlen, h1, h2⟩

/-- Whatever the fuel, the recursive aligner appends to its accumulator a
chained list of matches confined to the queried ranges. -/
theorem recursivelyFindMatchingBlocks_chained (beforeTokens : List Token)
    (index : Token → List Nat) :
    ∀ (fuel sB eB sA eA : Nat) (acc : List Match), sB ≤ eB → sA ≤ eA →
      ∃ Δ, recursivelyFindMatchingBlocks beforeTokens index fuel sB eB sA eA acc
            = acc ++ Δ ∧ Chained sB sA Δ eB eA := by
  intro fuel
  induction fuel with
  | zero =>
    intro sB eB sA eA acc h1 h2
    exact ⟨[], by simp [recursivelyFindMatchingBlocks], h1, h2⟩
  | succ fuel ih =>
    intro sB eB sA eA acc h1 h2
    rw [recursivelyFindMatchingBlocks]
    cases hm : findMatch beforeTokens index sB eB sA eA with
    | none => exact ⟨[], by simp, h1, h2⟩
    | some m =>
      obtain ⟨hb1, hb2, hb3, hb4, hb5⟩ :=
        findMatch_bounds beforeTokens index sB eB sA eA m hm
      dsimp only
      by_cases hleft : sB < m.startInBefore ∧ sA < m.startInAfter
      · rw [if_pos hleft]
        obtain ⟨Δ₁, hΔ₁, hc₁⟩ := ih sB m.startInBefore sA m.startInAfter acc
          (le_of_lt hleft.1) (le_of_lt hleft.2)
        rw [hΔ₁]
        by_cases hright : m.endInBefore < (eB : Int) ∧ m.endInAfter < (eA : Int)
        · rw [if_pos hright]
          obtain ⟨Δ₂, hΔ₂, hc₂⟩ := ih (m.startInBefore + m.length) eB
            (m.startInAfter + m.length) eA (acc ++ Δ₁ ++ [m]) (by omega) (by omega)
          refine ⟨Δ₁ ++ [m] ++ Δ₂, by rw [hΔ₂]; simp, ?_⟩
          exact (hc₁.append (Chained.single hb5 (le_refl _) (le_refl _))).append hc₂
        · rw [if_neg hright]
          refine ⟨Δ₁ ++ [m], by simp, ?_⟩
          exact hc₁.append (Chained.single hb5 (by omega) (by omega))
      · rw [if_neg hleft]
        by_cases hright : m.endInBefore < (eB : Int) ∧ m.endInAfter < (eA : Int)
        · rw [if_pos hright]
          obtain ⟨Δ₂, hΔ₂, hc₂⟩ := ih (m.startInBefore + m.length) eB
            (m.startInAfter + m.length) eA (acc ++ [m]) (by omega) (by omega)
          refine ⟨[m] ++ Δ₂, by rw [hΔ₂]; simp, ?_⟩
          exact ((Chained.single hb5 (le_refl _) (le_refl _)).mono_start hb1 hb3).append hc₂
        · rw [if_neg hright]
          refine ⟨[m], by simp, ?_⟩
          exact (Chained.single hb5 (by omega) (by omega)).mono_start hb1 hb3

/-- The full match list computed by `findMatchingBlocks` is chained and
confined to `[0, len(beforeTokens)) × [0, len(afterTokens))`. -/
theorem findMatchingBlocks_chained (beforeTokens afterTokens : List Token) :
    Chained 0 0 (findMatchingBlocks beforeTokens afterTokens)
      beforeTokens.length afterTokens.length := by
  obtain ⟨Δ, hΔ, hc⟩ := recursivelyFindMatchingBlocks_chained beforeTokens
    (createIndex beforeTokens afterTokens)
    (beforeTokens.length + afterTokens.length + 1)
    0 beforeTokens.length 0 afterTokens.length [] (by omega) (by omega)
  unfold findMatchingBlocks
  rw [hΔ]
  simpa using hc

theorem intsFromTo_empty (s e : Int) (h : e + 1 ≤ s) : intsFromTo s e = [] := by
  unfold intsFromTo
  have h0 : (e + 1 - s).toNat = 0 := by omega
  rw [h0]
  rfl

theorem intsFromTo_append (a b c : Int) (h1 : a ≤ b) (h2 : b ≤ c + 1) :
    intsFromTo a (b - 1) ++ intsFromTo b c = intsFromTo a c := by
  unfold intsFromTo
  have hsplit : (c + 1 - a).toNat = (b - 1 + 1 - a).toNat + (c + 1 - b).toNat := by omega
  rw [hsplit, List.range_add, List.map_append, List.map_map]
  congr 1
  apply List.map_congr_left
  intro k hk
  simp only [Function.comp_apply]
  omega

theorem OpOk.opOk_cursor_le {pB pA pB' pA' : Int} {op : Op} (h : OpOk pB pA op pB' pA') :
    pB ≤ pB' ∧ pA ≤ pA' := by
  obtain ⟨-, -, hrest⟩ := h
  cases hact : op.action <;> rw [hact] at hrest
  · obtain ⟨e1, e2, -, -, h1, h2, h3, h4⟩ := hrest; omega
  · obtain ⟨-, h1, e, -, h2, h3⟩ := hrest; omega
  · obtain ⟨-, h1, e, -, h2, h3⟩ := hrest; omega
  · obtain ⟨e1, e2, -, -, h1, h2, h3, h4⟩ := hrest; omega

theorem Tiles.tiles_cursor_le {pB pA qB qA : Int} {ops : List Op} (h : Tiles pB pA ops qB qA) :
    pB ≤ qB ∧ pA ≤ qA := by
  induction h with
  | nil => exact ⟨le_refl _, le_refl _⟩
  | cons hop _ ih => exact ⟨le_trans hop.opOk_cursor_le.1 ih.1, le_trans hop.opOk_cursor_le.2 ih.2⟩

theorem Tiles.covBefore_eq {pB pA qB qA : Int} {ops : List Op}
    (h : Tiles pB pA ops qB qA) :
    (ops.map covBefore).flatten = intsFromTo pB (qB - 1) := by
  induction h with
  | nil => rw [intsFromTo_empty] <;> simp
  | @cons pB pA pB' pA' qB qA op rest hop htail ih =>
    obtain ⟨hsB, hsA, hrest⟩ := hop
    have hle := htail.tiles_cursor_le
    simp only [List.map_cons, List.flatten_cons, ih]
    unfold covBefore
    cases hact : op.action <;> rw [hact] at hrest
    · obtain ⟨e1, e2, he1, he2, h1, h2, h3, h4⟩ := hrest
      rw [he1, hsB]
      have he : e1 = pB' - 1 := by omega
      rw [he]
      exact intsFromTo_append pB pB' (qB - 1) (by omega) (by omega)
    · obtain ⟨he, h1, e, he2, h2, h3⟩ := hrest
      simp [h1]
    · obtain ⟨he, h1, e, he2, h2, h3⟩ := hrest
      rw [he2, hsB]
      have he' : e = pB' - 1 := by omega
      rw [he']
      exact intsFromTo_append pB pB' (qB - 1) (by omega) (by omega)
    · obtain ⟨e1, e2, he1, he2, h1, h2, h3, h4⟩ := hrest
      rw [he1, hsB]
      have he : e1 = pB' - 1 := by omega
      rw [he]
      exact intsFromTo_append pB pB' (qB - 1) (by omega) (by omega)

theorem Tiles.covAfter_eq {pB pA qB qA : Int} {ops : List Op}
    (h : Tiles pB pA ops qB qA) :
    (ops.map covAfter).flatten = intsFromTo pA (qA - 1) := by
  induction h with
  | nil => rw [intsFromTo_empty] <;> simp
  | @cons pB pA pB' pA' qB qA op rest hop htail ih =>
    obtain ⟨hsB, hsA, hrest⟩ := hop
    have hle := htail.tiles_cursor_le
    simp only [List.map_cons, List.flatten_cons, ih]
    unfold covAfter
    cases hact : op.action <;> rw [hact] at hrest
    · obtain ⟨e1, e2, he1, he2, h1, h2, h3, h4⟩ := hrest
      rw [he2, hsA]
      have he : e2 = pA' - 1 := by omega
      rw [he]
      exact intsFromTo_append pA pA' (qA - 1) (by omega) (by omega)
    · obtain ⟨he, h1, e, he2, h2, h3⟩ := hrest
      rw [he2, hsA]
      have he' : e = pA' - 1 := by omega
      rw [he']
      exact intsFromTo_append pA pA' (qA - 1) (by omega) (by omega)
    · obtain ⟨he, h1, e, he2, h2, h3⟩ := hrest
      simp [h1]
    · obtain ⟨e1, e2, he1, he2, h1, h2, h3, h4⟩ := hrest
      rw [he2, hsA]
      have he : e2 = pA' - 1 := by omega
      rw [he]
      exact intsFromTo_append pA pA' (qA - 1) (by omega) (by omega)

theorem gapOpOf_insert (pB pA : Int) (m : Match) :
    gapOpOf .insert pB pA m
      = { action := .insert, startInBefore := pB, endInBefore := none,
          startInAfter := pA, endInAfter := some ((m.startInAfter : Int) - 1) } := rfl

theorem gapOpOf_delete (pB pA : Int) (m : Match) :
    gapOpOf .delete pB pA m
      = { action := .delete, startInBefore := pB,
          endInBefore := some ((m.startInBefore : Int) - 1),
          startInAfter := pA, endInAfter := none } := rfl

theorem gapOpOf_replace (pB pA : Int) (m : Match) :
    gapOpOf .replace pB pA m
      = { action := .replace, startInBefore := pB,
          endInBefore := some ((m.startInBefore : Int) - 1),
          startInAfter := pA, endInAfter := some ((m.startInAfter : Int) - 1) } := rfl

theorem eqOp_ok (m : Match) (h : 1 ≤ m.length) :
    OpOk (m.startInBefore : Int) (m.startInAfter : Int) (eqOpOf m)
      ((m.startInBefore + m.length : Nat) : Int)
      ((m.startInAfter + m.length : Nat) : Int) := by
  refine ⟨rfl, rfl, m.endInBefore, m.endInAfter, rfl, rfl, ?_, ?_, ?_, ?_⟩ <;>
    simp only [Match.endInBefore, Match.endInAfter] <;> push_cast <;> omega

/-- One iteration of the operation walk preserves tiling: the gap
operation (if any) tiles the cursor-to-match gap, the `equal` operation
(if the match is non-empty) tiles the match itself, and the cursors land
at `match.end + 1` in both coordinates. -/
theorem walkStep_tiles (m : Match) (rest : List Match) (pB pA : Nat) (qB qA : Int)
    (hc1 : pB ≤ m.startInBefore) (hc2 : pA ≤ m.startInAfter)
    (htail : Tiles ((m.startInBefore + m.length : Nat) : Int)
        ((m.startInAfter + m.length : Nat) : Int)
        (opsWalk rest (m.endInBefore + 1) (m.endInAfter + 1)) qB qA) :
    Tiles (pB : Int) (pA : Int) (opsWalk (m :: rest) (pB : Int) (pA : Int)) qB qA := by
  have heqTiles : Tiles (m.startInBefore : Int) (m.startInAfter : Int)
      ((if m.length ≠ 0 then [eqOpOf m] else []) ++
        opsWalk rest (m.endInBefore + 1) (m.endInAfter + 1)) qB qA := by
    by_cases hlen : m.length = 0
    · rw [if_neg (by omega)]
      rw [List.nil_append]
      have h1 : ((m.startInBefore + m.length : Nat) : Int) = (m.startInBefore : Int) := by
        simp [hlen]
      have h2 : ((m.startInAfter + m.length : Nat) : Int) = (m.startInAfter : Int) := by
        simp [hlen]
      rw [h1, h2] at htail
      exact htail
    · rw [if_pos hlen]
      exact Tiles.cons (eqOp_ok m (by omega)) htail
  rw [opsWalk]
  by_cases hB : (pB : Int) = (m.startInBefore : Int) <;>
    by_cases hA : (pA : Int) = (m.startInAfter : Int)
  · have hops : gapAction (decide ((pB : Int) = (m.startInBefore : Int)))
        (decide ((pA : Int) = (m.startInAfter : Int))) = none := by
      rw [decide_eq_true hB, decide_eq_true hA]
      rfl
    rw [hops]
    dsimp only
    rw [List.nil_append, hB, hA]
    exact heqTiles
  · have hops : gapAction (decide ((pB : Int) = (m.startInBefore : Int)))
        (decide ((pA : Int) = (m.startInAfter : Int))) = some .insert := by
      rw [decide_eq_true hB, decide_eq_false hA]
      rfl
    rw [hops]
    dsimp only
    rw [gapOpOf_insert, List.cons_append, List.nil_append]
    have htail' : Tiles (pB : Int) ((m.startInAfter : Int) - 1 + 1)
        ((if m.length ≠ 0 then [eqOpOf m] else []) ++
          opsWalk rest (m.endInBefore + 1) (m.endInAfter + 1)) qB qA := by
      have hh : ((m.startInAfter : Int) - 1 + 1) = (m.startInAfter : Int) := by ring
      rw [hh, hB]
      exact heqTiles
    exact Tiles.cons ⟨rfl, rfl, rfl, rfl, (m.startInAfter : Int) - 1, rfl,
      by omega, rfl⟩ htail'
  · have hops : gapAction (decide ((pB : Int) = (m.startInBefore : Int)))
        (decide ((pA : Int) = (m.startInAfter : Int))) = some .delete := by
      rw [decide_eq_false hB, decide_eq_true hA]
      rfl
    rw [hops]
    dsimp only
    rw [gapOpOf_delete, List.cons_append, List.nil_append]
    have htail' : Tiles ((m.startInBefore : Int) - 1 + 1) (pA : Int)
        ((if m.length ≠ 0 then [eqOpOf m] else []) ++
          opsWalk rest (m.endInBefore + 1) (m.endInAfter + 1)) qB qA := by
      have hh : ((m.startInBefore : Int) - 1 + 1) = (m.startInBefore : Int) := by ring
      rw [hh, hA]
      exact heqTiles
    exact Tiles.cons ⟨rfl, rfl, rfl, rfl, (m.startInBefore : Int) - 1, rfl,
      by omega, rfl⟩ htail'
  · have hops : gapAction (decide ((pB : Int) = (m.startInBefore : Int)))
        (decide ((pA : Int) = (m.startInAfter : Int))) = some .replace := by
      rw [decide_eq_false hB, decide_eq_false hA]
      rfl
    rw [hops]
    dsimp only
    rw [gapOpOf_replace, List.cons_append, List.nil_append]
    have htail' : Tiles ((m.startInBefore : Int) - 1 + 1) ((m.startInAfter : Int) - 1 + 1)
        ((if m.length ≠ 0 then [eqOpOf m] else []) ++
          opsWalk rest (m.endInBefore + 1) (m.endInAfter + 1)) qB qA := by
      have hh : ((m.startInBefore : Int) - 1 + 1) = (m.startInBefore : Int) := by ring
      have hh' : ((m.startInAfter : Int) - 1 + 1) = (m.startInAfter : Int) := by ring
      rw [hh, hh']
      exact heqTiles
    exact Tiles.cons ⟨rfl, rfl, (m.startInBefore : Int) - 1, (m.startInAfter : Int) - 1,
      rfl, rfl, by omega, by omega, rfl, rfl⟩ htail'

/-- Walking a chained match list (with the synthetic terminal match
appended) from any cursor pair yields a tiling up to the sequence
lengths. -/
theorem opsWalk_tiles (lenB lenA : Nat) :
    ∀ (ms : List Match) (pB pA : Nat), Chained pB pA ms lenB lenA →
      Tiles (pB : Int) (pA : Int)
        (opsWalk (ms ++ [⟨lenB, lenA, 0⟩]) (pB : Int) (pA : Int))
        (lenB : Int) (lenA : Int) := by
  intro ms
  induction ms with
  | nil =>
    intro pB pA hch
    rw [List.nil_append]
    refine walkStep_tiles ⟨lenB, lenA, 0⟩ [] pB pA (lenB : Int) (lenA : Int)
      hch.1 hch.2 ?_
    exact Tiles.nil _ _
  | cons m rest ih =>
    intro pB pA hch
    obtain ⟨hc1, hc2, hc3, hctail⟩ := hch
    rw [List.cons_append]
    refine walkStep_tiles m (rest ++ [⟨lenB, lenA, 0⟩]) pB pA (lenB : Int) (lenA : Int)
      hc1 hc2 ?_
    have hcur : m.endInBefore + 1 = ((m.startInBefore + m.length : Nat) : Int) := by
      simp only [Match.endInBefore]
      push_cast
      ring
    have hcur' : m.endInAfter + 1 = ((m.startInAfter + m.length : Nat) : Int) := by
      simp only [Match.endInAfter]
      push_cast
      ring
    rw [hcur, hcur']
    exact ih _ _ hctail

/-! ## Normalization preserves the tiling -/

theorem isSingleWhitespace_action {beforeTokens : List Token} {op : Op}
    (h : isSingleWhitespace beforeTokens op = true) : op.action = .equal := by
  by_contra hact
  unfold isSingleWhitespace at h
  rw [if_pos hact] at h
  exact Bool.false_ne_true h

theorem shouldMerge_spec {beforeTokens : List Token} {op lastOp : Op}
    (h : shouldMerge beforeTokens op lastOp = true) :
    lastOp.action = .replace ∧ (op.action = .equal ∨ op.action = .replace) := by
  unfold shouldMerge at h
  rw [Bool.or_eq_true, Bool.and_eq_true, Bool.and_eq_true] at h
  rcases h with ⟨h1, h2⟩ | ⟨h1, h2⟩
  · exact ⟨of_decide_eq_true h2, Or.inl (isSingleWhitespace_action h1)⟩
  · exact ⟨of_decide_eq_true h2, Or.inr (of_decide_eq_true h1)⟩

theorem mergedOp_ok {pB pA pB' pA' pB'' pA'' : Int} {lastOp op : Op}
    (hla : lastOp.action = .replace) (hoa : op.action = .equal ∨ op.action = .replace)
    (h1 : OpOk pB pA lastOp pB' pA') (h2 : OpOk pB' pA' op pB'' pA'') :
    OpOk pB pA { lastOp with endInBefore := op.endInBefore, endInAfter := op.endInAfter }
      pB'' pA'' := by
  obtain ⟨hsB1, hsA1, hrest1⟩ := h1
  rw [hla] at hrest1
  obtain ⟨e1B, e1A, he1B, he1A, ha1, ha2, ha3, ha4⟩ := hrest1
  have harm2 : ∃ e2B e2A, op.endInBefore = some e2B ∧ op.endInAfter = some e2A ∧
      pB' ≤ e2B ∧ pA' ≤ e2A ∧ pB'' = e2B + 1 ∧ pA'' = e2A + 1 := by
    obtain ⟨hsB2, hsA2, hrest2⟩ := h2
    rcases hoa with hact | hact <;> rw [hact] at hrest2 <;> exact hrest2
  obtain ⟨e2B, e2A, he2B, he2A, hb1, hb2, hb3, hb4⟩ := harm2
  refine ⟨hsB1, hsA1, ?_⟩
  have hact' : ({ lastOp with endInBefore := op.endInBefore, endInAfter := op.endInAfter } : Op).action = Action.replace := hla
  rw [hact']
  exact ⟨e2B, e2A, he2B, he2A, by omega, by omega, hb3, hb4⟩

theorem postProcessLoop_tiles (beforeTokens : List Token) :
    ∀ (rest : List Op) (lastOp : Op) (pB pA qB qA : Int),
      Tiles pB pA (lastOp :: rest) qB qA →
      Tiles pB pA (postProcessLoop beforeTokens rest lastOp) qB qA := by
  intro rest
  induction rest with
  | nil =>
    intro lastOp pB pA qB qA h
    rw [postProcessLoop]
    exact h
  | cons op rest' ih =>
    intro lastOp pB pA qB qA h
    rw [postProcessLoop]
    cases h with
    | cons hlast htail =>
      cases htail with
      | cons hop htail2 =>
        by_cases hm : shouldMerge beforeTokens op lastOp = true
        · rw [if_pos hm]
          obtain ⟨hla, hoa⟩ := shouldMerge_spec hm
          exact ih _ _ _ _ _ (Tiles.cons (mergedOp_ok hla hoa hlast hop) htail2)
        · rw [if_neg hm]
          exact Tiles.cons hlast (ih _ _ _ _ _ (Tiles.cons hop htail2))

theorem postProcessOperations_tiles (beforeTokens : List Token) {ops : List Op}
    {pB pA qB qA : Int} (h : Tiles pB pA ops qB qA) :
    Tiles pB pA (postProcessOperations ops beforeTokens) qB qA := by
  cases ops with
  | nil => rw [postProcessOperations]; exact h
  | cons op rest =>
    rw [postProcessOperations]
    exact postProcessLoop_tiles beforeTokens rest op pB pA qB qA h

/-! ## The coverage theorem -/

theorem intsFromTo_zero (n : Nat) :
    intsFromTo 0 ((n : Int) - 1) = (List.range n).map (fun (k : Nat) => (k : Int)) := by
  unfold intsFromTo
  have h0 : ((n : Int) - 1 + 1 - 0).toNat = n := by omega
  rw [h0]
  apply List.map_congr_left
  intro k hk
  omega

theorem calculateOperationsRaw_tiles (beforeTokens afterTokens : List Token) :
    Tiles 0 0 (calculateOperationsRaw beforeTokens afterTokens)
      (beforeTokens.length : Int) (afterTokens.length : Int) := by
  unfold calculateOperationsRaw
  have h := opsWalk_tiles beforeTokens.length afterTokens.length
    (findMatchingBlocks beforeTokens afterTokens) 0 0
    (findMatchingBlocks_chained beforeTokens afterTokens)
  simpa using h

theorem calculateOperationsOk_tiles (beforeTokens afterTokens : List Token) :
    Tiles 0 0 (calculateOperationsOk beforeTokens afterTokens)
      (beforeTokens.length : Int) (afterTokens.length : Int) :=
  postProcessOperations_tiles beforeTokens
    (calculateOperationsRaw_tiles beforeTokens afterTokens)

/-- C4: the operation list partitions both token-index ranges exactly —
concatenating, in operation order, the before-indices covered by each
operation (`insert` covers none) yields exactly `0, 1, ...,
len(beforeTokens) - 1`, and likewise on the after side (`delete` covers
none) — both for the raw operation list and after the normalization pass
of `postProcessOperations`. -/
theorem c4_operations_partition (beforeTokens afterTokens : List Token) :
    (((calculateOperationsRaw beforeTokens afterTokens).map covBefore).flatten
        = (List.range beforeTokens.length).map (fun (k : Nat) => (k : Int))
      ∧ ((calculateOperationsRaw beforeTokens afterTokens).map covAfter).flatten
        = (List.range afterTokens.length).map (fun (k : Nat) => (k : Int)))
    ∧ (((calculateOperationsOk beforeTokens afterTokens).map covBefore).flatten
        = (List.range beforeTokens.length).map (fun (k : Nat) => (k : Int))
      ∧ ((calculateOperationsOk beforeTokens afterTokens).map covAfter).flatten
        = (List.range afterTokens.length).map (fun (k : Nat) => (k : Int))) := by
  have hraw := calculateOperationsRaw_tiles beforeTokens afterTokens
  have hok := calculateOperationsOk_tiles beforeTokens afterTokens
  refine ⟨⟨?_, ?_⟩, ?_, ?_⟩
  · rw [hraw.covBefore_eq, intsFromTo_zero]
  · rw [hraw.covAfter_eq, intsFromTo_zero]
  · rw [hok.covBefore_eq, intsFromTo_zero]
  · rw [hok.covAfter_eq, intsFromTo_zero]

theorem chainLen_conds {bt aT : List Token} {sB eB sA eA i j : Nat}
    (h : chainLen bt aT sB eB sA eA i j ≠ 0) :
    sB ≤ i ∧ i < eB ∧ sA ≤ j ∧ j < eA ∧ bt[i]? ≠ none ∧ bt[i]? = aT[j]? := by
  by_contra hc
  rw [chainLen, if_neg hc] at h
  exact h rfl

theorem chainLen_of_conds {bt aT : List Token} {sB eB sA eA i j : Nat}
    (h : sB ≤ i ∧ i < eB ∧ sA ≤ j ∧ j < eA ∧ bt[i]? ≠ none ∧ bt[i]? = aT[j]?) :
    chainLen bt aT sB eB sA eA i j
      = (if i = 0 ∨ j = 0 then 0 else chainLen bt aT sB eB sA eA (i - 1) (j - 1)) + 1 := by
  rw [chainLen, if_pos h]

theorem run_of_chainLen {bt aT : List Token} {sB eB sA eA : Nat} :
    ∀ L, 1 ≤ L → ∀ i j, chainLen bt aT sB eB sA eA i j = L →
      L ≤ i + 1 ∧ L ≤ j + 1 ∧ IsRun bt aT sB eB sA eA (i + 1 - L) (j + 1 - L) L := by
  intro L
  induction L using Nat.strong_induction_on with
  | _ L ih =>
    intro hL i j hchain
    have hconds := chainLen_conds (by omega : chainLen bt aT sB eB sA eA i j ≠ 0)
    obtain ⟨h1, h2, h3, h4, h5, h6⟩ := hconds
    rw [chainLen_of_conds ⟨h1, h2, h3, h4, h5, h6⟩] at hchain
    by_cases hLone : L = 1
    · subst hLone
      refine ⟨by omega, by omega, by omega, by omega, by omega, by omega, by omega, ?_⟩
      intro k hk
      have hk0 : k = 0 := by omega
      subst hk0
      have hsi : i + 1 - 1 + 0 = i := by omega
      have hsj : j + 1 - 1 + 0 = j := by omega
      rw [hsi, hsj]
      exact ⟨h5, h6⟩
    · have hzero : ¬(i = 0 ∨ j = 0) := by
        intro hz
        rw [if_pos hz] at hchain
        omega
      rw [if_neg hzero] at hchain
      have hinner : chainLen bt aT sB eB sA eA (i - 1) (j - 1) = L - 1 := by omega
      have hIH := ih (L - 1) (by omega) (by omega) (i - 1) (j - 1) hinner
      obtain ⟨hle1, hle2, hrun⟩ := hIH
      obtain ⟨hr1, hr2, hr3, hr4, hr5, hr6⟩ := hrun
      have hs : i - 1 + 1 - (L - 1) = i + 1 - L := by omega
      have ht : j - 1 + 1 - (L - 1) = j + 1 - L := by omega
      rw [hs] at hr2 hr3 hr6
      rw [ht] at hr4 hr5 hr6
      refine ⟨by omega, by omega, by omega, hr2, by omega, hr4, by omega, ?_⟩
      intro k hk
      by_cases hkl : k < L - 1
      · exact hr6 k hkl
      · have hkL : k = L - 1 := by omega
        subst hkL
        have hi : i + 1 - L + (L - 1) = i := by omega
        have hj : j + 1 - L + (L - 1) = j := by omega
        rw [hi, hj]
        exact ⟨h5, h6⟩

theorem chainLen_ge_of_run {bt aT : List Token} {sB eB sA eA s t L : Nat}
    (h : IsRun bt aT sB eB sA eA s t L) :
    ∀ k, k < L → k + 1 ≤ chainLen bt aT sB eB sA eA (s + k) (t + k) := by
  obtain ⟨h1, h2, h3, h4, h5, h6⟩ := h
  intro k
  induction k with
  | zero =>
    intro hk
    obtain ⟨hm1, hm2⟩ := h6 0 hk
    rw [chainLen_of_conds ⟨by omega, by omega, by omega, by omega, hm1, hm2⟩]
    omega
  | succ k ihk =>
    intro hk
    obtain ⟨hm1, hm2⟩ := h6 (k + 1) hk
    rw [chainLen_of_conds ⟨by omega, by omega, by omega, by omega, hm1, hm2⟩]
    rw [if_neg (by omega)]
    have harith : s + (k + 1) - 1 = s + k := by omega
    have harith' : t + (k + 1) - 1 = t + k := by omega
    rw [harith, harith']
    have := ihk (by omega)
    omega

theorem mem_indexesOf {tok : Token} {l : List Token} {j : Nat} :
    j ∈ indexesOf tok l ↔ l[j]? = some tok := by
  unfold indexesOf
  rw [List.mem_filter, List.mem_range]
  constructor
  · rintro ⟨-, h⟩
    exact of_decide_eq_true h
  · intro h
    refine ⟨?_, decide_eq_true h⟩
    by_contra hlen
    rw [List.getElem?_eq_none (by omega)] at h
    exact Option.noConfusion h

theorem indexesOf_sorted (tok : Token) (l : List Token) :
    (indexesOf tok l).Pairwise (· < ·) :=
  List.Pairwise.filter _ (List.pairwise_lt_range _)

theorem createIndex_spec {findThese inThese : List Token} {tok : Token}
    (h : tok ∈ findThese) : createIndex findThese inThese tok = indexesOf tok inThese := by
  unfold createIndex
  rw [if_pos h]

theorem bestPart_advance {bt aT : List Token} {sB eB sA eA i : Nat} {T T' : Int}
    {best : Best} (h : BestPart bt aT sB eB sA eA i T best) (hT : T ≤ T')
    (hzero : ∀ j' : Nat, T ≤ (j' : Int) → (j' : Int) < T' →
      chainLen bt aT sB eB sA eA i j' = 0) :
    BestPart bt aT sB eB sA eA i T' best := by
  have hcell : ∀ i' j', CellLt i' j' i T' →
      CellLt i' j' i T ∨ chainLen bt aT sB eB sA eA i' j' = 0 := by
    intro i' j' hlt
    rcases hlt with hlt | ⟨rfl, hlt⟩
    · exact Or.inl (Or.inl hlt)
    · by_cases hj : (j' : Int) < T
      · exact Or.inl (Or.inr ⟨rfl, hj⟩)
      · exact Or.inr (hzero j' (by omega) hlt)
  rcases h with ⟨h1, h2, h3, h4⟩ | ⟨h1, ie, je, hc, h2, h3, h4, h5, h6⟩
  · refine Or.inl ⟨h1, h2, h3, ?_⟩
    intro i' j' hlt
    rcases hcell i' j' hlt with hlt' | hz
    · exact h4 i' j' hlt'
    · exact hz
  · refine Or.inr ⟨h1, ie, je, ?_, h2, h3, h4, ?_, ?_⟩
    · rcases hc with hc | ⟨rfl, hc⟩
      · exact Or.inl hc
      · exact Or.inr ⟨rfl, by omega⟩
    · intro i' j' hlt
      rcases hcell i' j' hlt with hlt' | hz
      · exact h5 i' j' hlt'
      · omega
    · intro i' j' hlt hchain
      rcases hcell i' j' hlt with hlt' | hz
      · exact h6 i' j' hlt' hchain
      · omega

theorem bestPart_nextRow {bt aT : List Token} {sB eB sA eA i : Nat} {T : Int}
    {best : Best} (h : BestPart bt aT sB eB sA eA i T best)
    (hzero : ∀ j' : Nat, T ≤ (j' : Int) → chainLen bt aT sB eB sA eA i j' = 0) :
    BestPart bt aT sB eB sA eA (i + 1) 0 best := by
  have hcell : ∀ i' j', CellLt i' j' (i + 1) 0 →
      CellLt i' j' i T ∨ chainLen bt aT sB eB sA eA i' j' = 0 := by
    intro i' j' hlt
    rcases hlt with hlt | ⟨rfl, hlt⟩
    · by_cases hi : i' < i
      · exact Or.inl (Or.inl hi)
      · have hii : i' = i := by omega
        subst hii
        by_cases hj : (j' : Int) < T
        · exact Or.inl (Or.inr ⟨rfl, hj⟩)
        · exact Or.inr (hzero j' (by omega))
    · omega
  rcases h with ⟨h1, h2, h3, h4⟩ | ⟨h1, ie, je, hc, h2, h3, h4, h5, h6⟩
  · refine Or.inl ⟨h1, h2, h3, ?_⟩
    intro i' j' hlt
    rcases hcell i' j' hlt with hlt' | hz
    · exact h4 i' j' hlt'
    · exact hz
  · refine Or.inr ⟨h1, ie, je, ?_, h2, h3, h4, ?_, ?_⟩
    · rcases hc with hc | ⟨rfl, hc⟩ <;> exact Or.inl (by omega)
    · intro i' j' hlt
      rcases hcell i' j' hlt with hlt' | hz
      · exact h5 i' j' hlt'
      · omega
    · intro i' j' hlt hchain
      rcases hcell i' j' hlt with hlt' | hz
      · exact h6 i' j' hlt' hchain
      · omega

theorem bestFinal_of_bestPart {bt aT : List Token} {sB eB sA eA i : Nat}
    {best : Best} (h : BestPart bt aT sB eB sA eA i 0 best) (hi : eB ≤ i) :
    BestFinal bt aT sB eB sA eA best := by
  have hcell : ∀ i' j', CellLt i' j' i 0 ∨ chainLen bt aT sB eB sA eA i' j' = 0 := by
    intro i' j'
    by_cases hz : chainLen bt aT sB eB sA eA i' j' = 0
    · exact Or.inr hz
    · obtain ⟨hc1, hc2, -⟩ := chainLen_conds hz
      exact Or.inl (Or.inl (by omega))
  rcases h with ⟨h1, h2, h3, h4⟩ | ⟨h1, ie, je, hc, h2, h3, h4, h5, h6⟩
  · refine Or.inl ⟨h1, h2, h3, ?_⟩
    intro i' j'
    rcases hcell i' j' with hlt' | hz
    · exact h4 i' j' hlt'
    · exact hz
  · refine Or.inr ⟨h1, ie, je, h2, h3, h4, ?_, ?_⟩
    · intro i' j'
      rcases hcell i' j' with hlt' | hz
      · exact h5 i' j' hlt'
      · omega
    · intro i' j' hchain
      rcases hcell i' j' with hlt' | hz
      · exact h6 i' j' hlt' hchain
      · omega

theorem bestPart_cellBound {bt aT : List Token} {sB eB sA eA i : Nat} {T : Int}
    {best : Best} (h : BestPart bt aT sB eB sA eA i T best) :
    ∀ i' j', CellLt i' j' i T → chainLen bt aT sB eB sA eA i' j' ≤ best.len := by
  intro i' j' hlt
  rcases h with ⟨h1, -, -, h4⟩ | ⟨-, ie, je, -, -, -, -, h5, -⟩
  · rw [h4 i' j' hlt, h1]
  · exact h5 i' j' hlt

theorem chainAtI_natCast (bt aT : List Token) (sB eB sA eA : Nat) (i : Nat) (k : Int) :
    chainAtI bt aT sB eB sA eA (i : Int) k
      = if 0 ≤ k then chainLen bt aT sB eB sA eA i k.toNat else 0 := by
  unfold chainAtI
  by_cases hk : 0 ≤ k
  · rw [if_pos ⟨by omega, hk⟩, if_pos hk]
    simp
  · rw [if_neg (by omega), if_neg hk]

theorem newLen_eq {bt aT : List Token} {sB eB sA eA i j : Nat}
    (hconds : sB ≤ i ∧ i < eB ∧ sA ≤ j ∧ j < eA ∧ bt[i]? ≠ none ∧ bt[i]? = aT[j]?) :
    chainAtI bt aT sB eB sA eA ((i : Int) - 1) ((j : Int) - 1) + 1
      = chainLen bt aT sB eB sA eA i j := by
  rw [chainLen_of_conds hconds]
  congr 1
  by_cases hz : i = 0 ∨ j = 0
  · rw [if_pos hz]
    unfold chainAtI
    rcases hz with rfl | rfl
    · rw [if_neg (by omega)]
    · rw [if_neg (by omega)]
  · rw [if_neg hz]
    unfold chainAtI
    rw [if_pos ⟨by omega, by omega⟩]
    congr 1 <;> omega

theorem innerLoop_spec (bt aT : List Token) (sB eB sA eA i : Nat)
    (hsBi : sB ≤ i) (hieB : i < eB) (mla : Int → Nat)
    (hmla : ∀ k : Int, mla k = chainAtI bt aT sB eB sA eA ((i : Int) - 1) k) :
    ∀ (L : List Nat) (T : Int) (newMla : Int → Nat) (best : Best),
      L.Pairwise (· < ·) →
      (∀ jn ∈ L, T ≤ (jn : Int) ∧ (sA ≤ jn → jn < eA →
          bt[i]? ≠ none ∧ bt[i]? = aT[jn]?)) →
      (∀ jn : Nat, T ≤ (jn : Int) → sA ≤ jn → jn < eA →
          bt[i]? ≠ none → bt[i]? = aT[jn]? → jn ∈ L) →
      (∀ k : Int, newMla k
          = if k < T then chainAtI bt aT sB eB sA eA (i : Int) k else 0) →
      BestPart bt aT sB eB sA eA i T best →
      (∀ k : Int, (innerLoop sA eA i mla L newMla best).1 k
          = chainAtI bt aT sB eB sA eA (i : Int) k) ∧
      BestPart bt aT sB eB sA eA (i + 1) 0 (innerLoop sA eA i mla L newMla best).2 := by
  intro L
  induction L with
  | nil =>
    intro T newMla best hPW hsound hcomplete hnew hbest
    rw [innerLoop]
    have hzero : ∀ j' : Nat, T ≤ (j' : Int) → chainLen bt aT sB eB sA eA i j' = 0 := by
      intro j' hT
      by_contra hz
      obtain ⟨-, -, hr1, hr2, hm1, hm2⟩ := chainLen_conds hz
      exact absurd (hcomplete j' hT hr1 hr2 hm1 hm2) (List.not_mem_nil j')
    refine ⟨?_, bestPart_nextRow hbest hzero⟩
    intro k
    show newMla k = chainAtI bt aT sB eB sA eA (i : Int) k
    rw [hnew k]
    by_cases hk : k < T
    · rw [if_pos hk]
    · rw [if_neg hk, chainAtI_natCast]
      by_cases hk0 : 0 ≤ k
      · rw [if_pos hk0, hzero k.toNat (by omega)]
      · rw [if_neg hk0]
  | cons j rest ih =>
    intro T newMla best hPW hsound hcomplete hnew hbest
    obtain ⟨hPWhead, hPWtail⟩ := List.pairwise_cons.mp hPW
    have hTj : T ≤ (j : Int) := (hsound j (List.mem_cons_self j rest)).1
    rw [innerLoop]
    by_cases hlo : j < sA
    · rw [if_pos hlo]
      have hgapzero : ∀ j' : Nat, T ≤ (j' : Int) → (j' : Int) < (j : Int) + 1 →
          chainLen bt aT sB eB sA eA i j' = 0 := by
        intro j' h1 h2
        by_contra hz
        obtain ⟨-, -, hr1, hr2, -, -⟩ := chainLen_conds hz
        omega
      refine ih ((j : Int) + 1) newMla best hPWtail ?_ ?_ ?_
        (bestPart_advance hbest (by omega) hgapzero)
      · intro jn hjn
        refine ⟨?_, (hsound jn (List.mem_cons_of_mem j hjn)).2⟩
        have := hPWhead jn hjn
        omega
      · intro jn h1 h2 h3 h4 h5
        rcases List.mem_cons.mp (hcomplete jn (by omega) h2 h3 h4 h5) with rfl | hmem
        · omega
        · exact hmem
      · intro k
        rw [hnew k]
        by_cases hk : k < T
        · rw [if_pos hk, if_pos (by omega)]
        · rw [if_neg hk]
          by_cases hk' : k < (j : Int) + 1
          · rw [if_pos hk', chainAtI_natCast]
            by_cases hk0 : 0 ≤ k
            · rw [if_pos hk0, hgapzero k.toNat (by omega) (by omega)]
            · rw [if_neg hk0]
          · rw [if_neg hk']
    · rw [if_neg hlo]
      by_cases hhi : eA ≤ j
      · rw [if_pos hhi]
        have hzero : ∀ j' : Nat, T ≤ (j' : Int) →
            chainLen bt aT sB eB sA eA i j' = 0 := by
          intro j' hT
          by_contra hz
          obtain ⟨-, -, hr1, hr2, hm1, hm2⟩ := chainLen_conds hz
          rcases List.mem_cons.mp (hcomplete j' hT hr1 hr2 hm1 hm2) with rfl | hmem
          · omega
          · have := hPWhead j' hmem
            omega
        refine ⟨?_, bestPart_nextRow hbest hzero⟩
        intro k
        show newMla k = chainAtI bt aT sB eB sA eA (i : Int) k
        rw [hnew k]
        by_cases hk : k < T
        · rw [if_pos hk]
        · rw [if_neg hk, chainAtI_natCast]
          by_cases hk0 : 0 ≤ k
          · rw [if_pos hk0, hzero k.toNat (by omega)]
          · rw [if_neg hk0]
      · rw [if_neg hhi]
        have hmatch := (hsound j (List.mem_cons_self j rest)).2 (by omega) (by omega)
        have hconds : sB ≤ i ∧ i < eB ∧ sA ≤ j ∧ j < eA ∧
            bt[i]? ≠ none ∧ bt[i]? = aT[j]? :=
          ⟨hsBi, hieB, by omega, by omega, hmatch.1, hmatch.2⟩
        have hlen : mla ((j : Int) - 1) + 1 = chainLen bt aT sB eB sA eA i j := by
          rw [hmla]
          exact newLen_eq hconds
        have hCpos : 1 ≤ chainLen bt aT sB eB sA eA i j := by omega
        have hgapzero : ∀ j' : Nat, T ≤ (j' : Int) → (j' : Int) < (j : Int) →
            chainLen bt aT sB eB sA eA i j' = 0 := by
          intro j' h1 h2
          by_contra hz
          obtain ⟨-, -, hr1, hr2, hm1, hm2⟩ := chainLen_conds hz
          rcases List.mem_cons.mp (hcomplete j' h1 hr1 hr2 hm1 hm2) with rfl | hmem
          · omega
          · have := hPWhead j' hmem
            omega
        have hnew' : ∀ k : Int,
            (fun k => if k = (j : Int) then mla ((j : Int) - 1) + 1 else newMla k) k
              = if k < (j : Int) + 1
                then chainAtI bt aT sB eB sA eA (i : Int) k else 0 := by
          intro k
          dsimp only
          by_cases hkj : k = (j : Int)
          · subst hkj
            rw [if_pos rfl, if_pos (by omega), chainAtI_natCast, if_pos (by omega)]
            rw [hlen]
            simp
          · rw [if_neg hkj, hnew k]
            by_cases hk : k < T
            · rw [if_pos hk, if_pos (by omega)]
            · rw [if_neg hk]
              by_cases hk' : k < (j : Int) + 1
              · rw [if_pos hk', chainAtI_natCast]
                by_cases hk0 : 0 ≤ k
                · rw [if_pos hk0, hgapzero k.toNat (by omega) (by omega)]
                · rw [if_neg hk0]
              · rw [if_neg hk']
        have hbest' : BestPart bt aT sB eB sA eA i ((j : Int) + 1)
            (if best.len < mla ((j : Int) - 1) + 1 then
              ⟨(i : Int) - (mla ((j : Int) - 1) + 1) + 1,
               (j : Int) - (mla ((j : Int) - 1) + 1) + 1,
               mla ((j : Int) - 1) + 1⟩ else best) := by
          have hcellsplit : ∀ i' j', CellLt i' j' i ((j : Int) + 1) →
              CellLt i' j' i T ∨ (i' = i ∧ j' = j) ∨
                chainLen bt aT sB eB sA eA i' j' = 0 := by
            intro i' j' hlt
            rcases hlt with hlt | ⟨rfl, hlt⟩
            · exact Or.inl (Or.inl hlt)
            · by_cases hjT : (j' : Int) < T
              · exact Or.inl (Or.inr ⟨rfl, hjT⟩)
              · by_cases hjj : j' = j
                · exact Or.inr (Or.inl ⟨rfl, hjj⟩)
                · exact Or.inr (Or.inr (hgapzero j' (by omega) (by omega)))
          by_cases hup : best.len < mla ((j : Int) - 1) + 1
          · rw [if_pos hup]
            refine Or.inr ⟨by dsimp only; omega, i, j, Or.inr ⟨rfl, by omega⟩,
              by dsimp only; omega, ?_, ?_, ?_, ?_⟩
            · dsimp only
              omega
            · dsimp only
              omega
            · intro i' j' hlt
              dsimp only
              rcases hcellsplit i' j' hlt with hlt' | ⟨rfl, rfl⟩ | hz
              · have := bestPart_cellBound hbest i' j' hlt'
                omega
              · omega
              · omega
            · intro i' j' hlt hchain
              dsimp only at hchain
              rcases hcellsplit i' j' hlt with hlt' | ⟨rfl, rfl⟩ | hz
              · have := bestPart_cellBound hbest i' j' hlt'
                omega
              · exact Or.inr ⟨rfl, le_refl _⟩
              · omega
          · rw [if_neg hup]
            have hblen : 1 ≤ best.len := by omega
            rcases hbest with ⟨h1, -, -, -⟩ | ⟨h1, ie, je, hc, h2, h3, h4, h5, h6⟩
            · omega
            · refine Or.inr ⟨h1, ie, je, ?_, h2, h3, h4, ?_, ?_⟩
              · rcases hc with hc | ⟨rfl, hc⟩
                · exact Or.inl hc
                · exact Or.inr ⟨rfl, by omega⟩
              · intro i' j' hlt
                rcases hcellsplit i' j' hlt with hlt' | ⟨rfl, rfl⟩ | hz
                · exact h5 i' j' hlt'
                · omega
                · omega
              · intro i' j' hlt hchain
                rcases hcellsplit i' j' hlt with hlt' | ⟨rfl, rfl⟩ | hz
                · exact h6 i' j' hlt' hchain
                · rcases hc with hc | ⟨rfl, hc⟩
                  · exact Or.inl hc
                  · exact Or.inr ⟨rfl, by omega⟩
                · omega
        refine ih ((j : Int) + 1) _ _ hPWtail ?_ ?_ hnew' hbest'
        · intro jn hjn
          refine ⟨?_, (hsound jn (List.mem_cons_of_mem j hjn)).2⟩
          have := hPWhead jn hjn
          omega
        · intro jn h1 h2 h3 h4 h5
          rcases List.mem_cons.mp (hcomplete jn (by omega) h2 h3 h4 h5) with rfl | hmem
          · omega
          · exact hmem

theorem outerLoop_spec (bt aT : List Token) (sB eB sA eA : Nat) :
    ∀ (steps i : Nat) (mla : Int → Nat) (best : Best),
      sB ≤ i → (i + steps = eB ∨ (steps = 0 ∧ eB ≤ i)) →
      (∀ k : Int, mla k = chainAtI bt aT sB eB sA eA ((i : Int) - 1) k) →
      BestPart bt aT sB eB sA eA i 0 best →
      BestFinal bt aT sB eB sA eA
        (outerLoop bt (createIndex bt aT) sA eA i steps mla best) := by
  intro steps
  induction steps with
  | zero =>
    intro i mla best hsB hsum hmla hbest
    rw [outerLoop]
    exact bestFinal_of_bestPart hbest (by omega)
  | succ steps ih =>
    intro i mla best hsB hsum hmla hbest
    rw [outerLoop]
    have hieB : i < eB := by omega
    have hnew0 : ∀ k : Int, (fun (_ : Int) => 0) k
        = if k < (0 : Int) then chainAtI bt aT sB eB sA eA (i : Int) k else 0 := by
      intro k
      by_cases hk : k < 0
      · rw [if_pos hk]
        unfold chainAtI
        rw [if_neg (by omega)]
      · rw [if_neg hk]
    have harith : ((i + 1 : Nat) : Int) - 1 = (i : Int) := by push_cast; ring
    cases htok : bt[i]? with
    | none =>
      dsimp only
      have hspec := innerLoop_spec bt aT sB eB sA eA i hsB hieB mla hmla
        [] 0 (fun _ => 0) best List.Pairwise.nil
        (by intro jn hjn; exact absurd hjn (List.not_mem_nil jn))
        (by intro jn h1 h2 h3 h4 h5; exact absurd htok h4)
        hnew0 hbest
      refine ih (i + 1) _ _ (by omega) (by omega) ?_ hspec.2
      intro k
      rw [harith]
      exact hspec.1 k
    | some tok =>
      dsimp only
      rw [createIndex_spec (List.getElem?_mem htok)]
      have hspec := innerLoop_spec bt aT sB eB sA eA i hsB hieB mla hmla
        (indexesOf tok aT) 0 (fun _ => 0) best (indexesOf_sorted tok aT)
        ?_ ?_ hnew0 hbest
      · refine ih (i + 1) _ _ (by omega) (by omega) ?_ hspec.2
        intro k
        rw [harith]
        exact hspec.1 k
      · intro jn hjn
        refine ⟨by omega, ?_⟩
        intro h1 h2
        have hmem := mem_indexesOf.mp hjn
        rw [htok, hmem]
        exact ⟨Option.noConfusion, rfl⟩
      · intro jn h1 h2 h3 h4 h5
        apply mem_indexesOf.mpr
        rw [htok] at h5
        exact h5.symm

theorem chainAtI_preRow (bt aT : List Token) (sB eB sA eA : Nat) (k : Int) :
    chainAtI bt aT sB eB sA eA ((sB : Int) - 1) k = 0 := by
  unfold chainAtI
  by_cases h : 0 ≤ (sB : Int) - 1 ∧ 0 ≤ k
  · rw [if_pos h]
    by_contra hz
    obtain ⟨hc1, -⟩ := chainLen_conds hz
    omega
  · rw [if_neg h]

theorem findMatch_bestFinal (bt aT : List Token) (sB eB sA eA : Nat) :
    BestFinal bt aT sB eB sA eA
      (outerLoop bt (createIndex bt aT) sA eA sB (eB - sB) (fun _ => 0)
        ⟨(sB : Int), (sA : Int), 0⟩) := by
  refine outerLoop_spec bt aT sB eB sA eA (eB - sB) sB (fun _ => 0)
    ⟨(sB : Int), (sA : Int), 0⟩ (le_refl sB) (by omega)
    (fun k => (chainAtI_preRow bt aT sB eB sA eA k).symm) ?_
  refine Or.inl ⟨rfl, rfl, rfl, ?_⟩
  intro i' j' hlt
  by_contra hz
  obtain ⟨hc1, -⟩ := chainLen_conds hz
  rcases hlt with hlt | ⟨-, hlt⟩ <;> omega

/-- C7: `findMatch` returns the single longest run of pairwise-equal
tokens between the two ranges; among runs tying for maximal length the
returned one is leftmost in before-order and, among those, leftmost in
after-order (the first-found one in scan order); and it returns `none`
exactly when the ranges share no common token. -/
theorem c7_findMatch_longest (bt aT : List Token) (sB eB sA eA : Nat) :
    (∀ m : Match, findMatch bt (createIndex bt aT) sB eB sA eA = some m →
      IsRun bt aT sB eB sA eA m.startInBefore m.startInAfter m.length
      ∧ (∀ s t L, IsRun bt aT sB eB sA eA s t L → L ≤ m.length)
      ∧ (∀ s t, IsRun bt aT sB eB sA eA s t m.length →
          m.startInBefore ≤ s ∧ (m.startInBefore = s → m.startInAfter ≤ t)))
    ∧ (findMatch bt (createIndex bt aT) sB eB sA eA = none ↔
        ∀ i j, sB ≤ i → i < eB → sA ≤ j → j < eA →
          ¬(bt[i]? ≠ none ∧ bt[i]? = aT[j]?)) := by
  have hfinal := findMatch_bestFinal bt aT sB eB sA eA
  unfold findMatch
  set b := outerLoop bt (createIndex bt aT) sA eA sB (eB - sB) (fun _ => 0)
    ⟨(sB : Int), (sA : Int), 0⟩ with hb
  by_cases hz : b.len ≠ 0
  · rw [if_pos hz]
    rcases hfinal with ⟨h0, -, -, -⟩ | ⟨h1, ie, je, hcell, hcB, hcA, hmax, htie⟩
    · exact absurd h0 hz
    · obtain ⟨hL1, hL2, hrun⟩ := run_of_chainLen b.len h1 ie je hcell
      have htnB : b.inBefore.toNat = ie + 1 - b.len := by
        rw [hcB]
        omega
      have htnA : b.inAfter.toNat = je + 1 - b.len := by
        rw [hcA]
        omega
      constructor
      · intro m hm
        obtain rfl := (Option.some.inj hm).symm
        dsimp only
        rw [htnB, htnA]
        refine ⟨hrun, ?_, ?_⟩
        · intro s t L hr
          have hgrow := chainLen_ge_of_run hr (L - 1) (by have hL := hr.1; omega)
          have hle := hmax (s + (L - 1)) (t + (L - 1))
          omega
        · intro s t hr
          have hgrow := chainLen_ge_of_run hr (b.len - 1) (by omega)
          have hle := hmax (s + (b.len - 1)) (t + (b.len - 1))
          have hceq : chainLen bt aT sB eB sA eA (s + (b.len - 1)) (t + (b.len - 1))
              = b.len := by omega
          have hscan := htie (s + (b.len - 1)) (t + (b.len - 1)) hceq
          constructor
          · rcases hscan with hlt | ⟨heq, -⟩ <;> omega
          · intro hEq
            rcases hscan with hlt | ⟨heq, hle'⟩
            · omega
            · omega
      · constructor
        · intro h
          exact Option.noConfusion h
        · intro hno
          exfalso
          obtain ⟨hr1, hr2, hr3, hr4, hr5, hmatch⟩ := hrun
          exact hno (ie + 1 - b.len) (je + 1 - b.len) hr2 (by omega) hr4 (by omega)
            (by simpa using hmatch 0 (by omega))
  · rw [if_neg hz]
    push_neg at hz
    rcases hfinal with ⟨-, -, -, hall⟩ | ⟨h1, -⟩
    · constructor
      · intro m hm
        exact absurd hm (by simp)
      · constructor
        · intro hnone i j h1 h2 h3 h4 hmatch
          have hchain : chainLen bt aT sB eB sA eA i j ≠ 0 := by
            rw [chainLen_of_conds ⟨h1, h2, h3, h4, hmatch.1, hmatch.2⟩]
            omega
          exact hchain (hall i j)
        · intro hnone
          rfl
    · omega

/-- Witness for `c6_error_iff_absent`, instantiated at a missing before
sequence and a present (empty) after sequence. -/
theorem c6_witness :
    ((∃ msg, calculateOperations none (some []) = Except.error msg)
      ↔ (none : Option (List Token)) = none ∨ (some [] : Option (List Token)) = none)
    ∧ ∀ bt aft, calculateOperations (some bt) (some aft)
        = Except.ok (calculateOperationsOk bt aft) :=
  c6_error_iff_absent none (some [])

/-- Witness for `c7_findMatch_longest` at the concrete sequences
`["a", "b"]` / `["b", "c"]` over their full ranges: the returned match is
the single common token `"b"`, at `(1, 0)` with length `1`, and its
hypothesis `findMatch … = some ⟨1, 0, 1⟩` is discharged by evaluation. -/
theorem c7_witness :
    findMatch [['a'], ['b']] (createIndex [['a'], ['b']] [['b'], ['c']]) 0 2 0 2
      = some ⟨1, 0, 1⟩
    ∧ (IsRun [['a'], ['b']] [['b'], ['c']] 0 2 0 2 1 0 1
      ∧ (∀ s t L, IsRun [['a'], ['b']] [['b'], ['c']] 0 2 0 2 s t L → L ≤ 1)
      ∧ (∀ s t, IsRun [['a'], ['b']] [['b'], ['c']] 0 2 0 2 s t 1 →
          1 ≤ s ∧ (1 = s → 0 ≤ t))) :=
  ⟨by decide,
    (c7_findMatch_longest [['a'], ['b']] [['b'], ['c']] 0 2 0 2).1 ⟨1, 0, 1⟩ (by decide)⟩

end HTMLDiff
